import Mathlib

/-!
# Verification of the SMILES skill (`smiles-skill`)

The repository's `src/index.js` (tool layer) marshals five boundary operations
(`parse_smiles`, `build_smiles`, `decompile_smiles`, `validate_roundtrip`,
`get_common_fragments`) over the `smiles-js` notation engine.  The engine
itself (`parse`, `buildSMILES`, `decompile`, `isValidRoundTrip`, the node
constructors and the `common` fragment table) is an external import, not part
of this repository's sources; those parts are modelled from the specification
(`spec.md` §3, §4.1–§4.6), as marked on each definition.  The tool layer
(`astToObject`, `objectToAst`, `reconstructAttachments` and the five exported
operations) is embedded directly from `src/index.js`.
-/

namespace SmilesSkill

/-- Bond kinds (spec §3: `{default/unspecified, single, double, triple,
aromatic}`); the default/unspecified kind is represented as `none` in an
`Option Bond`, matching the `null` entries of the JS `bonds` arrays. -/
inductive Bond where
  | single
  | double
  | triple
  | aromatic
deriving DecidableEq, Repr

/-- AST node variants (spec §3): `Linear`, `Ring`, `FusedRing`, `Molecule`.
Modelled from the spec: atoms are element-symbol strings (lower case implies
aromatic); a `Linear` holds N atoms, N−1 bonds and a position-keyed attachment
map; a `Ring` holds a base atom, size, ring-closure number, offset, a
position-keyed substitution map, a position-keyed attachment map, and a bonds
array of length `size`.  Position-keyed maps are ordered association lists
(spec §9: ordered mapping keyed by integer position, iterated ascending). -/
inductive Ast where
  | linear (atoms : List String) (bonds : List (Option Bond))
      (attachments : List (Nat × List Ast))
  | ring (atoms : String) (size : Nat) (ringNumber : Nat) (offset : Nat)
      (substitutions : List (Nat × String)) (attachments : List (Nat × List Ast))
      (bonds : List (Option Bond))
  | fusedRing (rings : List Ast)
  | molecule (components : List Ast)

/-- Position-keyed attachment map: ordered association list from atom position
to the ordered list of attached fragments at that position. -/
abbrev Atts := List (Nat × List Ast)

/-- Tokens of the SMILES surface syntax: atom tokens (bare one- or two-letter
element symbols, or a bracketed atom kept as an opaque token, spec §1
"passthrough as opaque tokens"), bond symbols, ring-closure digits, and
branch parentheses. -/
inductive Tok where
  | atom (s : String)
  | bond (b : Bond)
  | digit (n : Nat)
  | lparen
  | rparen
deriving DecidableEq, Repr

/-- The character written for each explicit bond kind (spec §4.1: `-=#:`). -/
def bondChar : Bond → Char
  | .single => '-'
  | .double => '='
  | .triple => '#'
  | .aromatic => ':'

/-- Emission of an optional bond: default bonds are omitted (spec §3:
"Default bonds are omitted on serialization"). -/
def bondToks : Option Bond → List Tok
  | none => []
  | some b => [Tok.bond b]

/-- All fragments attached at position `p`, in insertion order. -/
def attsAt : Atts → Nat → List Ast
  | [], _ => []
  | (q, l) :: rest, p => (if q = p then l else []) ++ attsAt rest p

/-- Substitution lookup: the override atom at position `p`, if any. -/
def subFind : List (Nat × String) → Nat → Option String
  | [], _ => none
  | (q, v) :: rest, p => if q = p then some v else subFind rest p

/-- Whether global position `p` lies on a member ring's span
`[offset, offset + size)` (spec §4.3: `FusedRing` emits each member ring's
sequence with shared positions emitted once; `offset` aligns a member to
its position within the fused system, spec §4.2 `fuse`). -/
def coversAst (a : Ast) (p : Nat) : Bool :=
  match a with
  | .ring _ size _ off _ _ _ => decide (off ≤ p ∧ p < off + size)
  | _ => false

/-- Whether position `p`'s incoming bond (from position `p − 1`) lies
strictly inside a member ring's span. -/
def coversInner (a : Ast) (p : Nat) : Bool :=
  match a with
  | .ring _ size _ off _ _ _ => decide (off < p ∧ p < off + size)
  | _ => false

/-- The atom emitted at global position `p` of a fused system: the first
member ring covering `p` supplies it (shared positions emitted once). -/
def fusedAtomAt (rs : List Ast) (p : Nat) : String :=
  match rs.find? (coversAst · p) with
  | some (.ring base _ _ off subs _ _) => (subFind subs (p - off)).getD base
  | _ => ""

/-- The bond entering global position `p` of a fused system, supplied by
the first member ring whose span strictly contains it. -/
def fusedBondAt (rs : List Ast) (p : Nat) : Option Bond :=
  match rs.find? (coversInner · p) with
  | some (.ring _ _ _ off _ _ bonds) => bonds.getD (p - off - 1) none
  | _ => none

/-- The ring-closure digits closed at global position `p`: every member
ring whose last position is `p` emits its digit there. -/
def fusedClosesAt (rs : List Ast) (p : Nat) : List Tok :=
  rs.flatMap fun a =>
    match a with
    | .ring _ size rn off _ _ _ => if off + size = p + 1 then [Tok.digit rn] else []
    | _ => []

/-- The ring-closure digits opened at global position `p`: every member
ring starting at `p` emits its closure bond (slot `size − 1`, written at
the opening digit where the parser stored it) and its digit. -/
def fusedOpensAt (rs : List Ast) (p : Nat) : List Tok :=
  rs.flatMap fun a =>
    match a with
    | .ring _ size rn off _ _ bonds =>
        if off = p then bondToks (bonds.getD (size - 1) none) ++ [Tok.digit rn]
        else []
    | _ => []

/-- The attachments at global position `p` of a fused system, concatenated
over the members covering `p` (the parser assigns each position's
attachments to a single member, so shared positions contribute once). -/
def fusedAttsAt (rs : List Ast) (p : Nat) : List Ast :=
  rs.flatMap fun a =>
    match a with
    | .ring _ _ _ off _ atts _ => if coversAst a p then attsAt atts (p - off) else []
    | _ => []

/-- One past the largest global position of any member ring. -/
def fusedSize (rs : List Ast) : Nat :=
  rs.foldr (fun a m =>
    max (match a with | .ring _ size _ off _ _ _ => off + size | _ => 0) m) 0

theorem sizeOf_list_append (xs ys : List Ast) :
    sizeOf (xs ++ ys) + 1 = sizeOf xs + sizeOf ys := by
  induction xs with
  | nil => simp; omega
  | cons a as ih => simp at ih ⊢; omega

theorem attsAt_sizeOf (atts : Atts) (p : Nat) :
    sizeOf (attsAt atts p) ≤ sizeOf atts := by
  induction atts with
  | nil => simp [attsAt]
  | cons e rest ih =>
    obtain ⟨q, l⟩ := e
    simp only [attsAt]
    by_cases h : q = p
    · simp only [h, if_pos rfl]
      have := sizeOf_list_append l (attsAt rest p)
      simp; omega
    · simp only [if_neg h, List.nil_append]
      simp; omega

theorem fusedAttsAt_sizeOf (rs : List Ast) (p : Nat) :
    sizeOf (fusedAttsAt rs p) ≤ sizeOf rs := by
  induction rs with
  | nil => simp [fusedAttsAt]
  | cons a rest ih =>
    cases a with
    | ring base size rn off subs atts bonds =>
      have hcons : fusedAttsAt (Ast.ring base size rn off subs atts bonds :: rest) p
          = (if coversAst (Ast.ring base size rn off subs atts bonds) p
             then attsAt atts (p - off) else []) ++ fusedAttsAt rest p := by
        simp [fusedAttsAt]
      rw [hcons]
      have h2 := sizeOf_list_append
        (if coversAst (Ast.ring base size rn off subs atts bonds) p
         then attsAt atts (p - off) else []) (fusedAttsAt rest p)
      have h1 : sizeOf (if coversAst (Ast.ring base size rn off subs atts bonds) p
          then attsAt atts (p - off) else []) ≤ 1 + sizeOf atts := by
        by_cases hc : coversAst (Ast.ring base size rn off subs atts bonds) p
        · rw [if_pos hc]
          have := attsAt_sizeOf atts (p - off)
          omega
        · rw [if_neg hc]
          have : sizeOf ([] : List Ast) = 1 := rfl
          omega
      simp only [List.cons.sizeOf_spec, Ast.ring.sizeOf_spec]
      omega
    | linear atoms bonds atts =>
      have hcons : fusedAttsAt (Ast.linear atoms bonds atts :: rest) p
          = fusedAttsAt rest p := by
        simp [fusedAttsAt]
      rw [hcons]
      simp only [List.cons.sizeOf_spec]
      omega
    | fusedRing rs2 =>
      have hcons : fusedAttsAt (Ast.fusedRing rs2 :: rest) p
          = fusedAttsAt rest p := by
        simp [fusedAttsAt]
      rw [hcons]
      simp only [List.cons.sizeOf_spec]
      omega
    | molecule cs =>
      have hcons : fusedAttsAt (Ast.molecule cs :: rest) p
          = fusedAttsAt rest p := by
        simp [fusedAttsAt]
      rw [hcons]
      simp only [List.cons.sizeOf_spec]
      omega

mutual

/-- Serializer (spec §4.3), at token level: walk positions in ascending
order; at each position emit the incoming bond symbol (omitted if default),
the substituted atom if present else the base atom, the ring-closure
digits closed and opened at this position (the closure bond symbol, stored
at the opening digit, directly before the opening digit), then any
attachments at that position as parenthesized recursive serializations in
list order.  A `FusedRing` walks the global positions reconstructed from
its member rings' offsets, each shared position emitted once; a `Molecule`
emits each component's serialization concatenated in order with no
separator.  Modelled from the spec (the engine's `buildSMILES` is
external). -/
def serializeToks : Ast → List Tok
  | .linear atoms bonds atts => emitLinAux bonds atts atoms 0
  | .ring base size rn _off subs atts bonds =>
      emitRingAux base subs atts bonds rn size size 0
  | .fusedRing rs => emitFused rs (fusedSize rs) 0
  | .molecule cs => emitComps cs
termination_by a => (sizeOf a, 0)
decreasing_by
  all_goals simp_wf
  all_goals apply Prod.Lex.left
  all_goals omega

/-- Concatenated serialization of a component list (spec §4.3, `Molecule`). -/
def emitComps : List Ast → List Tok
  | [] => []
  | c :: cs => serializeToks c ++ emitComps cs
termination_by cs => (sizeOf cs, 0)
decreasing_by
  all_goals simp_wf
  all_goals apply Prod.Lex.left
  all_goals omega

/-- Parenthesized serializations of the attachments of one position, in
insertion order (spec §4.2: adjacent parenthesized branches). -/
def emitAttGroup : List Ast → List Tok
  | [] => []
  | a :: as => Tok.lparen :: (serializeToks a ++ (Tok.rparen :: emitAttGroup as))
termination_by l => (sizeOf l, 0)
decreasing_by
  all_goals simp_wf
  all_goals apply Prod.Lex.left
  all_goals omega

/-- Position walk of a linear atom run: bond (positions ≥ 1), atom, then
attachments. -/
def emitLinAux : List (Option Bond) → Atts → List String → Nat → List Tok
  | _, _, [], _ => []
  | bonds, atts, a :: rest, i =>
      (if i = 0 then [] else bondToks (bonds.getD (i - 1) none))
        ++ [Tok.atom a]
        ++ emitAttGroup (attsAt atts i)
        ++ emitLinAux bonds atts rest (i + 1)
termination_by _ atts l _ => (sizeOf atts + sizeOf l, 0)
decreasing_by
  all_goals simp_wf
  all_goals apply Prod.Lex.left
  all_goals first
    | omega
    | (have h1 := attsAt_sizeOf atts i; omega)

/-- Position walk of a ring (spec §4.3): at position 0 the atom, the
closure bond symbol (slot `size − 1`, stored at the opening digit) and the
opening digit; at the last position the closing digit directly after the
atom; at every position the incoming bond before the atom and the
attachments after the digits. -/
def emitRingAux : String → List (Nat × String) → Atts → List (Option Bond) →
    Nat → Nat → Nat → Nat → List Tok
  | _, _, _, _, _, _, 0, _ => []
  | base, subs, atts, bonds, rn, size, fuel + 1, i =>
      (if i = 0 then [] else bondToks (bonds.getD (i - 1) none))
        ++ [Tok.atom ((subFind subs i).getD base)]
        ++ (if i + 1 = size then [Tok.digit rn] else [])
        ++ (if i = 0 then bondToks (bonds.getD (size - 1) none) ++ [Tok.digit rn]
            else [])
        ++ emitAttGroup (attsAt atts i)
        ++ emitRingAux base subs atts bonds rn size fuel (i + 1)
termination_by _ _ atts _ _ _ fuel _ => (sizeOf atts + fuel, 0)
decreasing_by
  all_goals simp_wf
  all_goals apply Prod.Lex.left
  all_goals first
    | omega
    | (have h1 := attsAt_sizeOf atts i; omega)

/-- Position walk of a fused ring system (spec §4.3): at each global
position the incoming bond, the atom from the first covering member, the
digits of the members closing and opening there, then the attachments
contributed by the covering members. -/
def emitFused (rs : List Ast) : Nat → Nat → List Tok
  | 0, _ => []
  | fuel + 1, p =>
      (if p = 0 then [] else bondToks (fusedBondAt rs p))
        ++ [Tok.atom (fusedAtomAt rs p)]
        ++ fusedClosesAt rs p
        ++ fusedOpensAt rs p
        ++ emitAttGroup (fusedAttsAt rs p)
        ++ emitFused rs fuel (p + 1)
termination_by fuel _ => (sizeOf rs, fuel)
decreasing_by
  all_goals simp_wf
  · have h1 := fusedAttsAt_sizeOf rs p
    rcases Nat.lt_or_ge (sizeOf (fusedAttsAt rs p)) (sizeOf rs) with h2 | h2
    · exact Prod.Lex.left _ _ h2
    · have h3 : sizeOf (fusedAttsAt rs p) = sizeOf rs := by omega
      rw [h3]
      exact Prod.Lex.right _ (by omega)
  · exact Prod.Lex.right _ (by omega)

end

/-- The characters of one token. -/
def tokChars : Tok → List Char
  | .atom s => s.data
  | .bond b => [bondChar b]
  | .digit n => [Nat.digitChar n]
  | .lparen => ['(']
  | .rparen => [')']

/-- The text of a token list. -/
def detokChars (toks : List Tok) : List Char := toks.flatMap tokChars

/-- Serializer at string level (spec §4.3 contract
`serialize(node) -> string`): the text of the token emission.
Modelled from the spec (the engine's `buildSMILES` is external). -/
def buildSMILES (a : Ast) : String := String.mk (detokChars (serializeToks a))

/-- Lower-case atoms denoting aromatic participation (spec glossary;
`b c n o p s`). -/
def isAromChar (c : Char) : Bool :=
  c == 'b' || c == 'c' || c == 'n' || c == 'o' || c == 'p' || c == 's'

/-- Single-letter bare element symbols of the organic subset. -/
def isUpperElem (c : Char) : Bool :=
  c == 'B' || c == 'C' || c == 'N' || c == 'O' || c == 'P' || c == 'S' ||
    c == 'F' || c == 'I'

/-- Scan the interior of a bracket atom up to the closing `]`; returns the
content and the remaining characters. -/
def scanBracket : List Char → Option (List Char × List Char)
  | [] => none
  | c :: rest =>
      if c = ']' then some ([], rest)
      else
        match scanBracket rest with
        | some (content, rest2) => some (c :: content, rest2)
        | none => none

theorem scanBracket_append {cs content rest2 : List Char}
    (h : scanBracket cs = some (content, rest2)) :
    cs = content ++ ']' :: rest2 := by
  induction cs generalizing content rest2 with
  | nil => simp [scanBracket] at h
  | cons c rest ih =>
    by_cases hc : c = ']'
    · simp [scanBracket, hc] at h
      simp [hc, h.1, h.2]
    · simp only [scanBracket, if_neg hc] at h
      cases h2 : scanBracket rest with
      | none => rw [h2] at h; simp at h
      | some p =>
        obtain ⟨content2, rest3⟩ := p
        rw [h2] at h
        simp at h
        rw [← h.1, ← h.2, ih h2]
        simp

/-- Attach one token in front of a tokenization result. -/
def consTok (t : Tok) : Except String (List Tok) → Except String (List Tok)
  | .ok toks => .ok (t :: toks)
  | .error e => .error e

theorem consTok_ok {t : Tok} {r : Except String (List Tok)} {l : List Tok}
    (h : consTok t r = .ok l) : ∃ l', r = .ok l' ∧ l = t :: l' := by
  cases r with
  | ok l' => exact ⟨l', rfl, by simpa [consTok] using h.symm⟩
  | error e => simp [consTok] at h

/-- Tokenizer for the SMILES surface syntax (spec §4.1 step 1–2: bracketed or
bare element symbols, lower case implying aromatic, bond symbols `-=#:`,
ring-closure digits, branch parentheses).  Two-letter bare symbols `Cl` and
`Br` are recognized greedily.  The fuel argument only bounds the recursion
(one unit per emitted token); `tokenize` supplies enough for any input.
Modelled from the spec (the engine's scanner is external). -/
def tokenizeAux : Nat → List Char → Except String (List Tok)
  | 0, _ => .error "SMILES too long"
  | _ + 1, [] => .ok []
  | fuel + 1, c :: rest =>
      if c = '(' then consTok Tok.lparen (tokenizeAux fuel rest)
      else if c = ')' then consTok Tok.rparen (tokenizeAux fuel rest)
      else if c = '-' then consTok (Tok.bond .single) (tokenizeAux fuel rest)
      else if c = '=' then consTok (Tok.bond .double) (tokenizeAux fuel rest)
      else if c = '#' then consTok (Tok.bond .triple) (tokenizeAux fuel rest)
      else if c = ':' then consTok (Tok.bond .aromatic) (tokenizeAux fuel rest)
      else if c.isDigit then consTok (Tok.digit (c.toNat - 48)) (tokenizeAux fuel rest)
      else if c = '[' then
        match scanBracket rest with
        | some (content, rest2) =>
            consTok (Tok.atom (String.mk ('[' :: content ++ [']'])))
              (tokenizeAux fuel rest2)
        | none => .error "Unclosed bracket atom"
      else if c = 'C' ∧ rest.head? = some 'l' then
        consTok (Tok.atom "Cl") (tokenizeAux fuel rest.tail)
      else if c = 'B' ∧ rest.head? = some 'r' then
        consTok (Tok.atom "Br") (tokenizeAux fuel rest.tail)
      else if isUpperElem c || isAromChar c then
        consTok (Tok.atom (String.mk [c])) (tokenizeAux fuel rest)
      else .error ("Invalid character in SMILES: " ++ String.mk [c])

/-- Tokenize a SMILES string. -/
def tokenize (s : String) : Except String (List Tok) :=
  tokenizeAux (s.data.length + 1) s.data

/-- One record of the parser's ring-closure map (spec §4.1 state (b): "an
open-ring-closure map from ring-closure digit to the pending atom index and
pending bond symbol seen immediately before the digit"): the digit, the
atom position at which it was opened, the stored pending bond, and — once
the digit has been matched again — the closing atom position (`none` while
the closure is still open). -/
structure Mark where
  digit : Nat
  start : Nat
  bond : Option Bond
  stop : Option Nat
deriving DecidableEq, Repr

/-- The closing position of a closure record (its opening position while it
is still open). -/
def Mark.stopD (m : Mark) : Nat := m.stop.getD m.start

/-- The run of atoms currently under construction (spec §4.1 state (c): the
"current node under construction"), with its position-keyed attachment map
and its ring-closure map in opening order.  The run is promoted to
`Ring`/`FusedRing` components when it is finalized, after its closure
digits have been matched (spec §4.1 step 3). -/
structure Run where
  atoms : List String
  bonds : List (Option Bond)
  atts : Atts
  marks : List Mark

/-- The empty run. -/
def Run.empty : Run := ⟨[], [], [], []⟩

/-- The full parser state: the current run, the branch stack of suspended
parent runs (spec §4.1 state (a)), and the pending bond symbol awaiting the
next atom (spec §4.1 step 2). -/
structure PState where
  run : Run
  stack : List Run
  pending : Option Bond

/-- The initial parser state. -/
def initState : PState := ⟨Run.empty, [], none⟩

/-- Append one attachment at position `p`, extending the last entry when it
is already at `p` (attachment lists are position-keyed and ordered;
insertion order is preserved, spec §4.2). -/
def addAtt : Atts → Nat → Ast → Atts
  | [], p, a => [(p, [a])]
  | [(q, l)], p, a => if q = p then [(q, l ++ [a])] else [(q, l), (p, [a])]
  | e :: rest, p, a => e :: addAtt rest p a

/-- The substitution map of a ring whose atom run is `l`: positions whose
atom differs from the base atom (spec §3: substitution overrides the base
atom at that position). -/
def mkSubsAux (base : String) : List String → Nat → List (Nat × String)
  | [], _ => []
  | a :: rest, k =>
      (if a = base then [] else [(k, a)]) ++ mkSubsAux base rest (k + 1)

/-- The attachment entries at positions `a ≤ p ≤ e`, re-keyed relative to
`a` (the attachments belonging to one segment of a finalized run). -/
def sliceAtts (atts : Atts) (a e : Nat) : Atts :=
  atts.filterMap fun x => if a ≤ x.1 ∧ x.1 ≤ e then some (x.1 - a, x.2) else none

/-- The first still-open record of the ring-closure map under digit `n`,
with its position in the map. -/
def findOpen : List Mark → Nat → Option (Nat × Mark)
  | [], _ => none
  | m :: rest, n =>
      if m.digit = n ∧ m.stop = none then some (0, m)
      else match findOpen rest n with
        | some (k, m2) => some (k + 1, m2)
        | none => none

/-- The first still-open record of the ring-closure map, if any. -/
def firstOpen : List Mark → Option Mark
  | [] => none
  | m :: rest => if m.stop = none then some m else firstOpen rest

/-- Whether some closure span contains position `p`. -/
def coveredB (marks : List Mark) (p : Nat) : Bool :=
  marks.any fun m => decide (m.start ≤ p ∧ p ≤ m.stopD)

/-- Whether some closure span crosses the boundary between positions
`c − 1` and `c`. -/
def crossesB (marks : List Mark) (c : Nat) : Bool :=
  marks.any fun m => decide (m.start < c ∧ c ≤ m.stopD)

/-- Last position of the ring cluster starting at `e`: extend while a
closure span crosses the next position boundary (spec §4.1 step 3: the
enclosing run of atoms between the paired indices, merged with every
closure overlapping it). -/
def clusterEnd (marks : List Mark) : Nat → Nat → Nat
  | 0, e => e
  | fuel + 1, e => if crossesB marks (e + 1) then clusterEnd marks fuel (e + 1) else e

/-- Last position of the closure-free gap starting at `e` within `n`
atoms: extend while the next position exists and lies under no closure
span. -/
def gapEnd (marks : List Mark) (n : Nat) : Nat → Nat → Nat
  | 0, e => e
  | fuel + 1, e =>
      if e + 1 < n ∧ ¬ coveredB marks (e + 1) then gapEnd marks n fuel (e + 1) else e

/-- Bonds of one closure span, in ring convention: the bonds entering
positions `start + 1 … stop` of the run, then the closure bond stored at
the opening digit in the last slot (slot `size − 1`). -/
def spanBonds (bonds : List (Option Bond)) (m : Mark) : List (Option Bond) :=
  (bonds.drop m.start).take (m.stopD - m.start) ++ [m.bond]

/-- Position in the member list of the first closure span covering `p`. -/
def firstCoverIdx : List Mark → Nat → Option Nat
  | [], _ => none
  | m :: rest, p =>
      if m.start ≤ p ∧ p ≤ m.stopD then some 0
      else (firstCoverIdx rest p).map (· + 1)

/-- The attachments assigned to member `k` of a cluster: each attached
position belongs to the first member span covering it (a position shared
between member rings is kept once), re-keyed relative to the member's
opening position. -/
def memberAtts (mems : List Mark) (k : Nat) (start : Nat) (atts : Atts) : Atts :=
  atts.filterMap fun e =>
    if firstCoverIdx mems e.1 = some k then some (e.1 - start, e.2) else none

/-- The `Ring` node of one closure span (spec §4.1 step 3: size = index
distance + 1): base atom = the atom at the opening position, substitutions
recording the positions whose atom differs from the base, the stored
closure bond in the last bond slot, and `offset` = the span's position
within its cluster. -/
def mkMember (atoms : List String) (bonds : List (Option Bond)) (atts : Atts)
    (mems : List Mark) (a k : Nat) (m : Mark) : Ast :=
  Ast.ring (atoms.getD m.start "") (m.stopD - m.start + 1) m.digit (m.start - a)
    (mkSubsAux (atoms.getD m.start "")
      ((atoms.drop m.start).take (m.stopD - m.start + 1)) 0)
    (memberAtts mems k m.start atts)
    (spanBonds bonds m)

/-- The member rings of a cluster, in map order. -/
def mkMembersAux (atoms : List String) (bonds : List (Option Bond)) (atts : Atts)
    (mems : List Mark) (a : Nat) : List Mark → Nat → List Ast
  | [], _ => []
  | m :: rest, k =>
      mkMember atoms bonds atts mems a k m
        :: mkMembersAux atoms bonds atts mems a rest (k + 1)

/-- One component of a finalized run, from segment `[a, e]` (spec §4.1
state (c) promotion): `Linear` when no closure span touches the segment,
`Ring` when exactly one span covers it, `FusedRing` of the member rings
sharing atoms at the overlaps when several spans do. -/
def mkComp (atoms : List String) (bonds : List (Option Bond)) (atts : Atts)
    (marks : List Mark) (a e : Nat) : Ast :=
  match marks.filter (fun m => decide (a ≤ m.start ∧ m.stopD ≤ e)) with
  | [] => Ast.linear ((atoms.drop a).take (e - a + 1)) ((bonds.drop a).take (e - a))
      (sliceAtts atts a e)
  | [m] => mkMember atoms bonds atts [m] a 0 m
  | mems => Ast.fusedRing (mkMembersAux atoms bonds atts mems a mems 0)

/-- Split a finalized run into its ordered components: alternating
closure-free linear segments and ring clusters (spec §4.1 steps 3 and 7).
An explicit bond symbol between two components has no place in the
resulting structure and is rejected. -/
def buildComps (atoms : List String) (bonds : List (Option Bond)) (atts : Atts)
    (marks : List Mark) (n : Nat) : Nat → Nat → Except String (List Ast)
  | 0, _ => .error "Parse error: component scan exhausted"
  | fuel + 1, a =>
      if n ≤ a then .ok []
      else if 0 < a ∧ bonds.getD (a - 1) none ≠ none then
        .error "Invalid bond: explicit bond between components"
      else
        let e := if coveredB marks a then clusterEnd marks n a else gapEnd marks n n a
        match buildComps atoms bonds atts marks n fuel (e + 1) with
        | .error er => .error er
        | .ok cs => .ok (mkComp atoms bonds atts marks a e :: cs)

/-- Finalize a run at a branch close or at end of input (spec §4.1 steps
6–7): a still-open ring-closure digit fails with `UnclosedRing` naming the
digit; otherwise the run splits into its components — several are wrapped
in a `Molecule`, a single one is returned alone. -/
def finalizeRun (r : Run) : Except String Ast :=
  match firstOpen r.marks with
  | some m => .error ("Unclosed ring closure: " ++ toString m.digit)
  | none =>
      match buildComps r.atoms r.bonds r.atts r.marks r.atoms.length
          (r.atoms.length + 1) 0 with
      | .error e => .error e
      | .ok [] => .error "Empty SMILES"
      | .ok [a] => .ok a
      | .ok cs => .ok (Ast.molecule cs)

/-- One parser transition (spec §4.1 algorithm steps 1–5).  Modelled from
the spec (the engine's `parse` is external).  A ring-closure digit not yet
open is opened, storing the current atom position and the pending bond
(spec §4.1 step 3); a digit already open is closed, recording the closing
position.  Choices the spec leaves open are resolved so that accepted
strings round-trip under the deterministic serializer of §4.3 (spec §8
first property), which forces one canonical spelling wherever SMILES
admits several spellings of the same structure: closure digits directly
follow their atom (before any branch), the closure bond is written at the
opening digit, and simultaneous closures at one atom occur in opening
order. -/
def step (st : PState) : Tok → Except String PState
  | .atom a =>
      let r := st.run
      if r.atoms.isEmpty then
        match st.pending with
        | some _ => .error "Invalid bond: no preceding atom"
        | none => .ok ⟨{ r with atoms := r.atoms ++ [a] }, st.stack, none⟩
      else
        .ok ⟨{ r with atoms := r.atoms ++ [a], bonds := r.bonds ++ [st.pending] },
          st.stack, none⟩
  | .bond b =>
      match st.pending with
      | some _ => .error "Invalid bond: consecutive bond symbols"
      | none => .ok ⟨st.run, st.stack, some b⟩
  | .digit n =>
      let r := st.run
      if r.atoms.isEmpty then .error "Invalid ring closure: no preceding atom"
      else if ¬ (attsAt r.atts (r.atoms.length - 1)).isEmpty then
        .error "Invalid ring closure: digit after branch"
      else
        match findOpen r.marks n with
        | none =>
            .ok ⟨{ r with
                marks := r.marks ++ [⟨n, r.atoms.length - 1, st.pending, none⟩] },
              st.stack, none⟩
        | some (k, m) =>
            if st.pending.isSome then
              .error "Invalid bond: bond before ring-closing digit"
            else if m.start < r.atoms.length - 1 then
              if ∀ m2 ∈ r.marks.drop (k + 1), m2.stop ≠ some (r.atoms.length - 1) then
                if ∀ m2 ∈ r.marks, ¬ (m2.stop = none ∧ m2.start = r.atoms.length - 1) then
                  .ok ⟨{ r with marks := r.marks.set k (Mark.mk
                      m.digit m.start m.bond (some (r.atoms.length - 1))) },
                    st.stack, none⟩
                else .error "Invalid ring closure: closure at its opening atom"
              else .error "Invalid ring closure: crossing closures out of order"
            else .error "Invalid ring closure: ring too small"
  | .lparen =>
      if st.pending.isSome then .error "Invalid bond: bond before branch"
      else if st.run.atoms.isEmpty then .error "Mismatched branch: no preceding atom"
      else .ok ⟨Run.empty, st.run :: st.stack, none⟩
  | .rparen =>
      if st.pending.isSome then .error "Invalid bond: bond before closing parenthesis"
      else
        match st.stack with
        | [] => .error "Mismatched parenthesis"
        | parent :: rest =>
            match finalizeRun st.run with
            | .error e => .error e
            | .ok ast =>
                if parent.atoms.isEmpty then
                  .error "Mismatched branch: no preceding atom"
                else
                  .ok ⟨{ parent with
                      atts := addAtt parent.atts (parent.atoms.length - 1) ast },
                    rest, none⟩

/-- Run the parser over a token list. -/
def parseLoop : PState → List Tok → Except String Ast
  | st, [] =>
      if st.pending.isSome then .error "Invalid bond at end of input"
      else
        match st.stack with
        | _ :: _ => .error "Mismatched parenthesis: unclosed branch"
        | [] => finalizeRun st.run
  | st, t :: ts =>
      match step st t with
      | .error e => .error e
      | .ok st' => parseLoop st' ts

/-- Parser (spec §4.1 contract `parse(text) -> AST | ParseError`): a single
left-to-right scan with a branch stack and an open-ring-closure map.
Modelled from the spec (the engine's `parse` is external). -/
def parse (s : String) : Except String Ast :=
  match tokenize s with
  | .error e => .error e
  | .ok toks => parseLoop initState toks

/-- Round-trip check (spec §4.5 contract `isValidRoundTrip(text) -> bool`,
defined as `parse(text)` succeeding and `serialize(parse(text)) == text`
exactly; on parse failure the result is `false`, not an error), generic in
the engine's parse and serialize functions (`src/index.js` imports them from
`smiles-js`). -/
def isValidRoundTripG (p : String → Except String Ast) (b : Ast → String)
    (s : String) : Bool :=
  match p s with
  | .ok a => b a == s
  | .error _ => false

/-- The round-trip check over the modelled engine. -/
def isValidRoundTrip : String → Bool := isValidRoundTripG parse buildSMILES

mutual

/-- Decompiler (spec §4.4): constructor-call text with literal arguments,
recursively decompiling nested attachments and fused/molecule members.
Modelled from the spec (the engine's `decompile` is external); only its
existence and recursive totality matter to the claims below. -/
def decompile : Ast → String
  | .linear atoms bonds atts =>
      "Linear([" ++ String.intercalate ", " (atoms.map fun a => "\x27" ++ a ++ "\x27")
        ++ "], [" ++ String.intercalate ", " (bonds.map fun
              | none => "null"
              | some b => "\x27" ++ String.mk [bondChar b] ++ "\x27")
        ++ "], \x7b" ++ decompAtts atts ++ "\x7d)"
  | .ring base size rn off subs atts bonds =>
      "Ring(\x7b atoms: \x27" ++ base ++ "\x27, size: " ++ toString size
        ++ ", ringNumber: " ++ toString rn ++ ", offset: " ++ toString off
        ++ ", substitutions: \x7b"
        ++ String.intercalate ", "
            (subs.map fun e => toString e.1 ++ ": \x27" ++ e.2 ++ "\x27")
        ++ "\x7d, attachments: \x7b" ++ decompAtts atts
        ++ "\x7d, bonds: [" ++ String.intercalate ", " (bonds.map fun
              | none => "null"
              | some b => "\x27" ++ String.mk [bondChar b] ++ "\x27")
        ++ "] \x7d)"
  | .fusedRing rs => "FusedRing([" ++ decompList rs ++ "])"
  | .molecule cs => "Molecule([" ++ decompList cs ++ "])"
termination_by a => sizeOf a
decreasing_by
  all_goals simp_wf
  all_goals omega

/-- Decompiled attachment map entries. -/
def decompAtts : Atts → String
  | [] => ""
  | (p, l) :: rest =>
      toString p ++ ": [" ++ decompList l ++ "], " ++ decompAtts rest
termination_by atts => sizeOf atts
decreasing_by
  all_goals simp_wf
  all_goals omega

/-- Decompiled node list. -/
def decompList : List Ast → String
  | [] => ""
  | [a] => decompile a
  | a :: rest => decompile a ++ ", " ++ decompList rest
termination_by l => sizeOf l
decreasing_by
  all_goals simp_wf
  all_goals omega

end

/-! ## The tool layer (`src/index.js`)

The plain-object AST exchanged across the boundary (spec §6: a structural
record with a discriminant field `"ring" | "linear" | "fused_ring" |
"molecule"`).  Fields that `objectToAst` (src/index.js lines 50–89) reads
with a `||` or `reconstructAttachments` default are `Option`-valued here,
`none` standing for JavaScript `undefined`. -/

/-- A plain-object AST record as received by `build_smiles`. -/
inductive ObjNode where
  | ring (atoms : String) (size : Nat) (ringNumber : Option Nat)
      (offset : Option Nat) (substitutions : Option (List (Nat × String)))
      (attachments : Option (List (Nat × List ObjNode)))
      (bonds : Option (List (Option Bond)))
  | linear (atoms : Option (List String)) (bonds : Option (List (Option Bond)))
      (attachments : Option (List (Nat × List ObjNode)))
  | fusedRing (rings : Option (List ObjNode))
  | molecule (components : Option (List ObjNode))

/-- JavaScript `x || d` on an optional number: `0` and `undefined` are falsy
and yield the default (src/index.js lines 61–62:
`ringNumber: obj.ringNumber || 1`, `offset: obj.offset || 0`). -/
def jsOrNat (v : Option Nat) (d : Nat) : Nat :=
  match v with
  | none => d
  | some 0 => d
  | some n => n

mutual

/-- Function `objectToAst` (src/index.js lines 50–89): reconstruct an engine node from
a plain object; the `Ring`/`Linear`/`FusedRing`/`Molecule` constructors of
`smiles-js` are modelled from the spec as the corresponding `Ast`
constructors. -/
def objectToAst : ObjNode → Ast
  | .ring atoms size rn off subs atts bonds =>
      Ast.ring atoms size (jsOrNat rn 1) (jsOrNat off 0) (subs.getD [])
        (reconstructAttachments atts) (bonds.getD [])
  | .linear atoms bonds atts =>
      Ast.linear (atoms.getD []) (bonds.getD []) (reconstructAttachments atts)
  | .fusedRing none => Ast.fusedRing (objAstList [])
  | .fusedRing (some rings) => Ast.fusedRing (objAstList rings)
  | .molecule none => Ast.molecule (objAstList [])
  | .molecule (some comps) => Ast.molecule (objAstList comps)
termination_by o => sizeOf o
decreasing_by
  all_goals simp_wf
  all_goals omega

/-- Function `reconstructAttachments` (src/index.js lines 94–102): map each
position's list elementwise through `objectToAst`; missing map becomes
empty. -/
def reconstructAttachments : Option (List (Nat × List ObjNode)) → Atts
  | none => []
  | some l => objAttList l
termination_by o => sizeOf o
decreasing_by
  all_goals simp_wf
  all_goals omega

/-- Attachment-map entries of `reconstructAttachments`. -/
def objAttList : List (Nat × List ObjNode) → Atts
  | [] => []
  | (p, l) :: rest => (p, objAstList l) :: objAttList rest
termination_by l => sizeOf l
decreasing_by
  all_goals simp_wf
  all_goals omega

/-- Elementwise `objectToAst` over a node list. -/
def objAstList : List ObjNode → List Ast
  | [] => []
  | o :: os => objectToAst o :: objAstList os
termination_by l => sizeOf l
decreasing_by
  all_goals simp_wf
  all_goals omega

end

/-- Result of `parse_smiles` (src/index.js lines 107–123): on success a
record with `success: true`, the input string and the plain-object AST; on
failure `success: false` with the error message only (no `ast` field). -/
inductive ParseResult where
  | ok (smiles : String) (ast : Ast)
  | err (error : String)

/-- Result of `build_smiles` (src/index.js lines 128–143). -/
inductive BuildResult where
  | ok (smiles : String)
  | err (error : String)
deriving DecidableEq, Repr

/-- Result of `decompile_smiles` (src/index.js lines 148–164). -/
inductive DecompileResult where
  | ok (smiles : String) (code : String)
  | err (error : String)
deriving DecidableEq, Repr

/-- Result of `validate_roundtrip` (src/index.js lines 169–199): on success
`success: true` with the `valid` flag, the regenerated string when and only
when the round trip mismatched, and a message; `success: false` with the
error message when the engine faulted. -/
inductive RtResult where
  | ok (smiles : String) (valid : Bool) (regenerated : Option String)
      (message : String)
  | err (error : String)
deriving DecidableEq, Repr

/-- Operation `parse_smiles` (src/index.js lines 107–123): parse, convert to a plain
object and return it; the `try/catch` surfaces an engine fault as
`{success: false, error}`.  The engine node's plain-object rendering
(`astToObject`, whose `node.toObject()` branch applies to engine nodes) is
the `Ast` value itself in this embedding; the generic object sanitization of
`astToObject` on plain values is modelled separately as `sanitizeJs`
below. -/
def parse_smiles (smiles : String) : ParseResult :=
  match parse smiles with
  | .ok ast => .ok smiles ast
  | .error e => .err e

/-- Operation `build_smiles` (src/index.js lines 128–143): reconstruct an engine node
from the plain object and serialize it. -/
def build_smiles (ast : ObjNode) : BuildResult :=
  .ok (buildSMILES (objectToAst ast))

/-- Operation `decompile_smiles` (src/index.js lines 148–164): parse, then emit
constructor code. -/
def decompile_smiles (smiles : String) : DecompileResult :=
  match parse smiles with
  | .ok ast => .ok smiles (decompile ast)
  | .error e => .err e

/-- Operation `validate_roundtrip` (src/index.js lines 169–199), generic in the
engine's parse and serialize: when `isValidRoundTrip` holds, a fixed success
message and no `regenerated` field; otherwise parse again and report both
the original and the regenerated text; a parse fault inside the `try` is
returned as `{success: false, error}` by the `catch`. -/
def validate_roundtripG (p : String → Except String Ast) (b : Ast → String)
    (smiles : String) : RtResult :=
  if isValidRoundTripG p b smiles then
    .ok smiles true none "SMILES round-trip validation passed"
  else
    match p smiles with
    | .ok ast =>
        .ok smiles false (some (b ast))
          ("Round-trip mismatch: expected \"" ++ smiles ++ "\", got \""
            ++ b ast ++ "\"")
    | .error e => .err e

/-- The boundary validator over the modelled engine. -/
def validate_roundtrip (smiles : String) : RtResult :=
  validate_roundtripG parse buildSMILES smiles

/-- One fragment record exposed by `get_common_fragments`
(src/index.js lines 210–214: the fragment's SMILES and its node type). -/
structure FragEntry where
  smiles : String
  type : String
deriving DecidableEq, Repr

/-- The `smiles-js/common` fragment table.  Modelled from the spec (§4.6: a
static, read-only mapping from fragment name to a pre-built node) and the
repository's documentation (src/skill-prompt.md lists the fragment names
and several of their SMILES; the tests pin `benzene` to `c1ccccc1`). -/
def commonFragments : List (String × FragEntry) :=
  [("methyl", ⟨"C", "linear"⟩), ("ethyl", ⟨"CC", "linear"⟩),
   ("propyl", ⟨"CCC", "linear"⟩), ("isopropyl", ⟨"C(C)C", "linear"⟩),
   ("butyl", ⟨"CCCC", "linear"⟩), ("tertButyl", ⟨"C(C)(C)C", "linear"⟩),
   ("hydroxyl", ⟨"O", "linear"⟩), ("amino", ⟨"N", "linear"⟩),
   ("carboxyl", ⟨"C(=O)O", "linear"⟩), ("carbonyl", ⟨"C=O", "linear"⟩),
   ("ester", ⟨"C(=O)O", "linear"⟩), ("ether", ⟨"O", "linear"⟩),
   ("aldehyde", ⟨"C=O", "linear"⟩), ("ketone", ⟨"C(=O)C", "linear"⟩),
   ("phenyl", ⟨"c1ccccc1", "ring"⟩), ("benzyl", ⟨"Cc1ccccc1", "molecule"⟩),
   ("benzene", ⟨"c1ccccc1", "ring"⟩), ("cyclohexane", ⟨"C1CCCCC1", "ring"⟩),
   ("cyclopentane", ⟨"C1CCCC1", "ring"⟩), ("pyridine", ⟨"c1ccncc1", "ring"⟩),
   ("furan", ⟨"c1ccoc1", "ring"⟩), ("pyrrole", ⟨"c1cc[nH]c1", "ring"⟩),
   ("imidazole", ⟨"c1cnc[nH]1", "ring"⟩), ("fluoro", ⟨"F", "linear"⟩),
   ("chloro", ⟨"Cl", "linear"⟩), ("bromo", ⟨"Br", "linear"⟩),
   ("iodo", ⟨"I", "linear"⟩), ("nitro", ⟨"N(=O)O", "linear"⟩),
   ("cyano", ⟨"C#N", "linear"⟩), ("sulfhydryl", ⟨"S", "linear"⟩),
   ("sulfonyl", ⟨"S(=O)=O", "linear"⟩), ("phosphate", ⟨"P(=O)(O)O", "linear"⟩)]

/-- Result of `get_common_fragments` (src/index.js lines 221–232): always
`success: true`, with the fragment map and the category map. -/
structure FragResult where
  success : Bool
  fragments : List (String × FragEntry)
  categories : List (String × List String)
deriving DecidableEq, Repr

/-- Operation `get_common_fragments` (src/index.js lines 204–233): the fragment map
(every `common` entry with a `smiles` field) and the hard-coded category
lists of src/index.js lines 224–231. -/
def get_common_fragments : FragResult :=
  { success := true
    fragments := commonFragments
    categories :=
      [("alkyl", ["methyl", "ethyl", "propyl", "isopropyl", "butyl", "tertButyl"]),
       ("functional", ["hydroxyl", "amino", "carboxyl", "carbonyl", "ester",
          "ether", "aldehyde", "ketone"]),
       ("aromatic", ["phenyl", "benzyl"]),
       ("rings", ["benzene", "cyclohexane", "cyclopentane", "pyridine", "furan",
          "pyrrole", "imidazole"]),
       ("halides", ["fluoro", "chloro", "bromo", "iodo"]),
       ("other", ["nitro", "cyano", "sulfhydryl", "sulfonyl", "phosphate"])] }

/-! ## Sanitization performed by `astToObject` (src/index.js lines 21–45)

`astToObject` walks an arbitrary JavaScript value: non-objects are returned
as-is, arrays are converted elementwise, and on plain objects the
underscore-prefixed keys and the function-valued properties are skipped and
the remaining values converted recursively.  (Its `node.toObject()` branch
applies to engine AST nodes, whose plain rendering is modelled from the spec
as `astToJs` below: spec §6, the exchanged AST is a plain structural
record.) -/

/-- A JavaScript value: primitives, a function value, an array, or a plain
object given as an ordered field list. -/
inductive JsValue where
  | str (s : String)
  | num (n : Int)
  | bool (b : Bool)
  | null
  | fn
  | arr (elems : List JsValue)
  | obj (fields : List (String × JsValue))

/-- Whether a value is a function (`typeof value === 'function'`). -/
def JsValue.isFn : JsValue → Bool
  | .fn => true
  | _ => false

/-- Whether a key begins with an underscore — the JavaScript
`key.startsWith('_')` of src/index.js line 39, stated on the first
character. -/
def underscoreKey (k : String) : Bool := k.data.head? == some '_'

mutual

/-- The plain-value part of `astToObject` (src/index.js lines 21–45):
non-objects returned unchanged, arrays converted elementwise, object fields
filtered (skip `_`-prefixed keys, skip function values) and converted
recursively. -/
def sanitizeJs : JsValue → JsValue
  | .arr xs => .arr (sanitizeArr xs)
  | .obj fs => .obj (sanitizeFields fs)
  | v => v
termination_by v => sizeOf v
decreasing_by
  all_goals simp_wf
  all_goals omega

/-- Elementwise conversion of an array (src/index.js line 32). -/
def sanitizeArr : List JsValue → List JsValue
  | [] => []
  | x :: xs => sanitizeJs x :: sanitizeArr xs
termination_by l => sizeOf l
decreasing_by
  all_goals simp_wf
  all_goals omega

/-- Field loop of `astToObject` (src/index.js lines 37–43). -/
def sanitizeFields : List (String × JsValue) → List (String × JsValue)
  | [] => []
  | (k, v) :: fs =>
      if underscoreKey k || v.isFn then sanitizeFields fs
      else (k, sanitizeJs v) :: sanitizeFields fs
termination_by l => sizeOf l
decreasing_by
  all_goals simp_wf
  all_goals omega

end

mutual

/-- A value is clean when, at every nesting depth, it contains no function
value and no object key beginning with an underscore — i.e. it is plain
JSON-serializable data. -/
def cleanJs : JsValue → Bool
  | .fn => false
  | .arr xs => cleanArr xs
  | .obj fs => cleanFields fs
  | _ => true
termination_by v => sizeOf v
decreasing_by
  all_goals simp_wf
  all_goals omega

/-- Cleanliness of array elements. -/
def cleanArr : List JsValue → Bool
  | [] => true
  | x :: xs => cleanJs x && cleanArr xs
termination_by l => sizeOf l
decreasing_by
  all_goals simp_wf
  all_goals omega

/-- Cleanliness of object fields. -/
def cleanFields : List (String × JsValue) → Bool
  | [] => true
  | (k, v) :: fs => !underscoreKey k && cleanJs v && cleanFields fs
termination_by l => sizeOf l
decreasing_by
  all_goals simp_wf
  all_goals omega

end

mutual

/-- Precondition under which the `astToObject` walk sanitizes fully: no
function value sits directly inside an array (array elements are mapped, not
filtered, so a function element would survive; engine AST nodes have none). -/
def arrOk : JsValue → Bool
  | .arr xs => arrOkArr xs
  | .obj fs => arrOkFields fs
  | _ => true
termination_by v => sizeOf v
decreasing_by
  all_goals simp_wf
  all_goals omega

/-- Predicate `arrOk` over array elements: no element is a function. -/
def arrOkArr : List JsValue → Bool
  | [] => true
  | x :: xs => !x.isFn && arrOk x && arrOkArr xs
termination_by l => sizeOf l
decreasing_by
  all_goals simp_wf
  all_goals omega

/-- Predicate `arrOk` over object fields. -/
def arrOkFields : List (String × JsValue) → Bool
  | [] => true
  | (_, v) :: fs => arrOk v && arrOkFields fs
termination_by l => sizeOf l
decreasing_by
  all_goals simp_wf
  all_goals omega

end

mutual

/-- The plain-object rendering of an engine AST node, as exchanged across
the boundary.  Modelled from the spec (§6: a plain structural record with a
discriminant `type` field and the §3 attributes; the engine's `toObject` is
external). -/
def astToJs : Ast → JsValue
  | .linear atoms bonds atts =>
      .obj [("type", .str "linear"),
        ("atoms", .arr (atoms.map JsValue.str)),
        ("bonds", .arr (bonds.map fun
            | none => JsValue.null
            | some b => JsValue.str (String.mk [bondChar b]))),
        ("attachments", .obj (attsToJs atts))]
  | .ring base size rn off subs atts bonds =>
      .obj [("type", .str "ring"), ("atoms", .str base),
        ("size", .num size), ("ringNumber", .num rn), ("offset", .num off),
        ("substitutions",
          .obj (subs.map fun e => (toString e.1, JsValue.str e.2))),
        ("attachments", .obj (attsToJs atts)),
        ("bonds", .arr (bonds.map fun
            | none => JsValue.null
            | some b => JsValue.str (String.mk [bondChar b])))]
  | .fusedRing rs =>
      .obj [("type", .str "fused_ring"), ("rings", .arr (astListToJs rs))]
  | .molecule cs =>
      .obj [("type", .str "molecule"), ("components", .arr (astListToJs cs))]
termination_by a => sizeOf a
decreasing_by
  all_goals simp_wf
  all_goals omega

/-- Attachment map as a plain object keyed by decimal position. -/
def attsToJs : Atts → List (String × JsValue)
  | [] => []
  | (p, l) :: rest => (toString p, .arr (astListToJs l)) :: attsToJs rest
termination_by atts => sizeOf atts
decreasing_by
  all_goals simp_wf
  all_goals omega

/-- Elementwise rendering of a node list. -/
def astListToJs : List Ast → List JsValue
  | [] => []
  | a :: rest => astToJs a :: astListToJs rest
termination_by l => sizeOf l
decreasing_by
  all_goals simp_wf
  all_goals omega

end

/-! ## Round-trip: the tokenizer loses no text -/

theorem detokChars_cons (t : Tok) (l : List Tok) :
    detokChars (t :: l) = tokChars t ++ detokChars l := by
  simp [detokChars]

theorem digitChar_toNat (c : Char) (h : c.isDigit = true) :
    Nat.digitChar (c.toNat - 48) = c := by
  simp [Char.isDigit] at h
  obtain ⟨h1, h2⟩ := h
  have h1' : 48 ≤ c.toNat := h1
  have h2' : c.toNat ≤ 57 := h2
  have hc : Char.ofNat c.toNat = c := Char.ofNat_toNat c
  have : c.toNat = 48 ∨ c.toNat = 49 ∨ c.toNat = 50 ∨ c.toNat = 51 ∨
      c.toNat = 52 ∨ c.toNat = 53 ∨ c.toNat = 54 ∨ c.toNat = 55 ∨
      c.toNat = 56 ∨ c.toNat = 57 := by omega
  rcases this with h | h | h | h | h | h | h | h | h | h <;>
    (rw [← hc, h]; decide)

/-- Tokenization is lossless: the text of the produced token list is the
input. -/
theorem tokenizeAux_detok :
    ∀ (fuel : Nat) (cs : List Char) (toks : List Tok),
      tokenizeAux fuel cs = .ok toks → detokChars toks = cs := by
  intro fuel
  induction fuel with
  | zero => intro cs toks h; simp [tokenizeAux] at h
  | succ fuel ih =>
    intro cs toks h
    cases cs with
    | nil =>
      simp only [tokenizeAux] at h
      cases h
      simp [detokChars]
    | cons c rest =>
      simp only [tokenizeAux] at h
      by_cases h1 : c = '('
      · rw [if_pos h1] at h
        obtain ⟨l', hr, rfl⟩ := consTok_ok h
        simp [detokChars_cons, tokChars, ih _ _ hr, h1]
      · rw [if_neg h1] at h
        by_cases h2 : c = ')'
        · rw [if_pos h2] at h
          obtain ⟨l', hr, rfl⟩ := consTok_ok h
          simp [detokChars_cons, tokChars, ih _ _ hr, h2]
        · rw [if_neg h2] at h
          by_cases h3 : c = '-'
          · rw [if_pos h3] at h
            obtain ⟨l', hr, rfl⟩ := consTok_ok h
            simp [detokChars_cons, tokChars, bondChar, ih _ _ hr, h3]
          · rw [if_neg h3] at h
            by_cases h4 : c = '='
            · rw [if_pos h4] at h
              obtain ⟨l', hr, rfl⟩ := consTok_ok h
              simp [detokChars_cons, tokChars, bondChar, ih _ _ hr, h4]
            · rw [if_neg h4] at h
              by_cases h5 : c = '#'
              · rw [if_pos h5] at h
                obtain ⟨l', hr, rfl⟩ := consTok_ok h
                simp [detokChars_cons, tokChars, bondChar, ih _ _ hr, h5]
              · rw [if_neg h5] at h
                by_cases h6 : c = ':'
                · rw [if_pos h6] at h
                  obtain ⟨l', hr, rfl⟩ := consTok_ok h
                  simp [detokChars_cons, tokChars, bondChar, ih _ _ hr, h6]
                · rw [if_neg h6] at h
                  by_cases h7 : c.isDigit = true
                  · rw [if_pos h7] at h
                    obtain ⟨l', hr, rfl⟩ := consTok_ok h
                    simp [detokChars_cons, tokChars, ih _ _ hr,
                      digitChar_toNat c h7]
                  · rw [if_neg h7] at h
                    by_cases h8 : c = '['
                    · rw [if_pos h8] at h
                      cases hscan : scanBracket rest with
                      | none => rw [hscan] at h; simp at h
                      | some p =>
                        obtain ⟨content, rest2⟩ := p
                        rw [hscan] at h
                        obtain ⟨l', hr, rfl⟩ := consTok_ok h
                        have hr2 := ih _ _ hr
                        have hsplit := scanBracket_append hscan
                        simp [detokChars_cons, tokChars, hr2, h8, hsplit]
                    · rw [if_neg h8] at h
                      by_cases h9 : c = 'C' ∧ rest.head? = some 'l'
                      · rw [if_pos h9] at h
                        obtain ⟨hC, hl⟩ := h9
                        obtain ⟨l', hr, rfl⟩ := consTok_ok h
                        have hr2 := ih _ _ hr
                        cases rest with
                        | nil => simp at hl
                        | cons r rest' =>
                          simp only [List.head?] at hl
                          injection hl with hl
                          subst hl
                          subst hC
                          rw [detokChars_cons]
                          simp only [List.tail] at hr2
                          rw [hr2]
                          rfl
                      · rw [if_neg h9] at h
                        by_cases h10 : c = 'B' ∧ rest.head? = some 'r'
                        · rw [if_pos h10] at h
                          obtain ⟨hB, hrh⟩ := h10
                          obtain ⟨l', hr, rfl⟩ := consTok_ok h
                          have hr2 := ih _ _ hr
                          cases rest with
                          | nil => simp at hrh
                          | cons r rest' =>
                            simp only [List.head?] at hrh
                            injection hrh with hrh
                            subst hrh
                            subst hB
                            rw [detokChars_cons]
                            simp only [List.tail] at hr2
                            rw [hr2]
                            rfl
                        · rw [if_neg h10] at h
                          by_cases h11 : (isUpperElem c || isAromChar c) = true
                          · rw [if_pos h11] at h
                            obtain ⟨l', hr, rfl⟩ := consTok_ok h
                            simp [detokChars_cons, tokChars, ih _ _ hr]
                          · rw [if_neg h11] at h
                            simp at h

/-- Tokenizing a string is lossless. -/
theorem tokenize_detok {s : String} {toks : List Tok}
    (h : tokenize s = .ok toks) : String.mk (detokChars toks) = s := by
  have := tokenizeAux_detok _ _ _ h
  rw [this]

/-! ## Round trip: reconstruction of the consumed tokens -/

/-- The ring-closure tokens opened at run position `i`: every map record
opened at `i` emits its stored bond and its digit there, in map order. -/
def marksOpensAt (marks : List Mark) (i : Nat) : List Tok :=
  marks.flatMap fun m =>
    if m.start = i then bondToks m.bond ++ [Tok.digit m.digit] else []

/-- The ring-closure digits closed at run position `i`, in map order. -/
def marksClosesAt (marks : List Mark) (i : Nat) : List Tok :=
  marks.flatMap fun m => if m.stop = some i then [Tok.digit m.digit] else []

/-- Position walk of a run: incoming bond, atom, closing digits, opening
bonds and digits, then attachments. -/
def runWalk (bonds : List (Option Bond)) (atts : Atts) (marks : List Mark) :
    List String → Nat → List Tok
  | [], _ => []
  | a :: rest, i =>
      (if i = 0 then [] else bondToks (bonds.getD (i - 1) none))
        ++ [Tok.atom a]
        ++ marksClosesAt marks i
        ++ marksOpensAt marks i
        ++ emitAttGroup (attsAt atts i)
        ++ runWalk bonds atts marks rest (i + 1)

/-- Tokens of a run. -/
def emitRun (r : Run) : List Tok := runWalk r.bonds r.atts r.marks r.atoms 0

/-- Tokens of the suspended branch stack around an inner emission. -/
def emitStack : List Run → List Tok → List Tok
  | [], acc => acc
  | r :: rs, acc => emitStack rs (emitRun r ++ Tok.lparen :: acc)

/-- Tokens consumed so far by a parser state. -/
def emitState (st : PState) : List Tok :=
  emitStack st.stack (emitRun st.run ++ bondToks st.pending)

/-- Wellformedness of one closure record over `n` atoms. -/
def MarkOk (m : Mark) (n : Nat) : Prop :=
  m.start < n ∧ ∀ t, m.stop = some t → m.start < t ∧ t < n

/-- Wellformedness of a run reachable by the parser: an empty run carries
nothing else; a non-empty run has one bond slot fewer than atoms;
attachment positions and closure-record positions index existing atoms. -/
def RunOk (r : Run) : Prop :=
  (r.atoms = [] → r.bonds = [] ∧ r.atts = [] ∧ r.marks = [])
    ∧ (r.atoms ≠ [] → r.bonds.length + 1 = r.atoms.length)
    ∧ (∀ e ∈ r.atts, e.1 < r.atoms.length)
    ∧ (∀ m ∈ r.marks, MarkOk m r.atoms.length)

/-- Wellformedness of a parser state: the current run and every suspended
run are wellformed, and every suspended run has a current atom to attach
the branch to. -/
def StateOk (st : PState) : Prop :=
  RunOk st.run ∧ ∀ f ∈ st.stack, RunOk f ∧ f.atoms ≠ []

theorem RunOk.empty : RunOk Run.empty := by
  refine ⟨fun _ => ⟨rfl, rfl, rfl⟩, fun h => absurd rfl h, ?_, ?_⟩
  · intro e he; simp [Run.empty] at he
  · intro m hm; simp [Run.empty] at hm

theorem attsAt_append (t1 t2 : Atts) (p : Nat) :
    attsAt (t1 ++ t2) p = attsAt t1 p ++ attsAt t2 p := by
  induction t1 with
  | nil => simp [attsAt]
  | cons e rest ih =>
    obtain ⟨q, l⟩ := e
    simp [attsAt, ih]

theorem attsAt_addAtt (atts : Atts) (p : Nat) (a : Ast) (q : Nat) :
    attsAt (addAtt atts p a) q = attsAt atts q ++ (if p = q then [a] else []) := by
  induction atts with
  | nil =>
    simp only [addAtt, attsAt]
    by_cases h : p = q <;> simp [h, eq_comm]
  | cons e rest ih =>
    obtain ⟨q0, l0⟩ := e
    cases rest with
    | nil =>
      simp only [addAtt]
      by_cases h0 : q0 = p
      · subst h0
        by_cases hq : q0 = q
        · subst hq; simp [attsAt]
        · simp [attsAt, hq]
      · simp only [if_neg h0]
        by_cases hq : q0 = q <;> by_cases hpq : p = q <;>
          simp [attsAt, hq, hpq]
    | cons e2 rest2 =>
      simp only [addAtt, attsAt]
      rw [ih]
      simp [attsAt]

theorem attsAt_of_not_mem (atts : Atts) (p : Nat)
    (h : ∀ e ∈ atts, e.1 ≠ p) : attsAt atts p = [] := by
  induction atts with
  | nil => simp [attsAt]
  | cons e rest ih =>
    obtain ⟨q, l⟩ := e
    have hq : q ≠ p := h (q, l) (by simp)
    simp only [attsAt, if_neg hq, List.nil_append]
    exact ih fun e he => h e (by simp [he])

theorem attsAt_sliceAtts (atts : Atts) (a e x : Nat) :
    attsAt (sliceAtts atts a e) x
      = if a + x ≤ e then attsAt atts (a + x) else [] := by
  induction atts with
  | nil => simp [attsAt, sliceAtts]
  | cons e0 rest ih =>
    obtain ⟨q, l⟩ := e0
    have hrhs : attsAt ((q, l) :: rest) (a + x)
        = (if q = a + x then l else []) ++ attsAt rest (a + x) := rfl
    by_cases hq : a ≤ q ∧ q ≤ e
    · have hcons : sliceAtts ((q, l) :: rest) a e
          = (q - a, l) :: sliceAtts rest a e := by
        simp [sliceAtts, hq]
      rw [hcons]
      have hlhs : attsAt ((q - a, l) :: sliceAtts rest a e) x
          = (if q - a = x then l else []) ++ attsAt (sliceAtts rest a e) x := rfl
      rw [hlhs, ih, hrhs]
      by_cases hx : q - a = x
      · have hqx : q = a + x := by omega
        have hle : a + x ≤ e := by omega
        rw [if_pos hx, if_pos hle, if_pos hle, if_pos hqx]
      · have hqx : q ≠ a + x := by omega
        rw [if_neg hx, if_neg hqx]
        by_cases hle : a + x ≤ e
        · rw [if_pos hle, if_pos hle]
        · rw [if_neg hle, if_neg hle]
          simp
    · have hcons : sliceAtts ((q, l) :: rest) a e = sliceAtts rest a e := by
        simp only [sliceAtts, List.filterMap_cons]
        rw [if_neg hq]
      rw [hcons, ih, hrhs]
      by_cases hle : a + x ≤ e
      · have hqx : q ≠ a + x := by omega
        rw [if_pos hle, if_pos hle, if_neg hqx]
        simp
      · rw [if_neg hle, if_neg hle]

theorem emitStack_acc (fs : List Run) (acc : List Tok) :
    emitStack fs acc = emitStack fs [] ++ acc := by
  induction fs generalizing acc with
  | nil => simp [emitStack]
  | cons f fs ih =>
    simp only [emitStack]
    rw [ih (emitRun f ++ Tok.lparen :: acc), ih (emitRun f ++ [Tok.lparen])]
    simp

theorem getD_append_left {α} (l1 l2 : List α) (n : Nat) (d : α)
    (h : n < l1.length) : (l1 ++ l2).getD n d = l1.getD n d := by
  simp [List.getD_eq_getElem?_getD, List.getElem?_append_left h]

theorem getD_concat_length {α} (l : List α) (x d : α) :
    (l ++ [x]).getD l.length d = x := by
  simp [List.getD_eq_getElem?_getD, List.getElem?_concat_length]

theorem getD_drop {α} (l : List α) (i q : Nat) (d : α) :
    (l.drop i).getD q d = l.getD (i + q) d := by
  simp [List.getD_eq_getElem?_getD, List.getElem?_drop]

theorem getD_take {α} (l : List α) (k n : Nat) (d : α) (h : n < k) :
    (l.take k).getD n d = l.getD n d := by
  simp [List.getD_eq_getElem?_getD, List.getElem?_take_of_lt h]

theorem getD_cons_head {α} (a : α) (l : List α) (d : α) :
    (a :: l).getD 0 d = a := rfl

theorem drop_cons_of_getD {α} (l : List α) (i : Nat) (a : α) (l' : List α)
    (h : l.drop i = a :: l') (d : α) : l.getD i d = a := by
  have : (l.drop i).getD 0 d = a := by rw [h]; rfl
  rwa [getD_drop, Nat.add_zero] at this

theorem subFind_mkSubsAux_lt (base : String) (l : List String) (k0 q : Nat)
    (h : q < k0) : subFind (mkSubsAux base l k0) q = none := by
  induction l generalizing k0 with
  | nil => simp [mkSubsAux, subFind]
  | cons a rest ih =>
    by_cases ha : a = base
    · simp only [mkSubsAux, if_pos ha, List.nil_append]
      exact ih (k0 + 1) (by omega)
    · simp only [mkSubsAux, if_neg ha, List.cons_append, List.nil_append, subFind]
      rw [if_neg (by omega)]
      exact ih (k0 + 1) (by omega)

theorem subFind_mkSubsAux (base : String) (l : List String) (k0 m : Nat)
    (hm : m < l.length) :
    (subFind (mkSubsAux base l k0) (k0 + m)).getD base = l.getD m "" := by
  induction l generalizing k0 m with
  | nil => simp at hm
  | cons a rest ih =>
    cases m with
    | zero =>
      by_cases ha : a = base
      · simp only [mkSubsAux, if_pos ha, List.nil_append, Nat.add_zero]
        rw [subFind_mkSubsAux_lt base rest (k0 + 1) k0 (by omega)]
        simp [ha, getD_cons_head]
      · simp only [mkSubsAux, if_neg ha, List.cons_append, List.nil_append,
          subFind, Nat.add_zero, if_pos rfl]
        simp [getD_cons_head]
    | succ m' =>
      have hm' : m' < rest.length := by simpa using hm
      by_cases ha : a = base
      · simp only [mkSubsAux, if_pos ha, List.nil_append]
        have := ih (k0 + 1) m' hm'
        rw [show k0 + (m' + 1) = k0 + 1 + m' by omega]
        simpa using this
      · simp only [mkSubsAux, if_neg ha, List.cons_append, List.nil_append, subFind]
        rw [if_neg (by omega)]
        have := ih (k0 + 1) m' hm'
        rw [show k0 + (m' + 1) = k0 + 1 + m' by omega]
        simpa using this

theorem emitComps_append (xs ys : List Ast) :
    emitComps (xs ++ ys) = emitComps xs ++ emitComps ys := by
  induction xs with
  | nil => simp [emitComps]
  | cons a xs ih => simp [emitComps, ih]

theorem emitAttGroup_append (xs ys : List Ast) :
    emitAttGroup (xs ++ ys) = emitAttGroup xs ++ emitAttGroup ys := by
  induction xs with
  | nil => simp [emitAttGroup]
  | cons a xs ih => simp [emitAttGroup, ih]

theorem marksOpensAt_append (m1 m2 : List Mark) (i : Nat) :
    marksOpensAt (m1 ++ m2) i = marksOpensAt m1 i ++ marksOpensAt m2 i := by
  simp [marksOpensAt]

theorem marksClosesAt_append (m1 m2 : List Mark) (i : Nat) :
    marksClosesAt (m1 ++ m2) i = marksClosesAt m1 i ++ marksClosesAt m2 i := by
  simp [marksClosesAt]

theorem marksOpensAt_cons (m : Mark) (rest : List Mark) (i : Nat) :
    marksOpensAt (m :: rest) i
      = (if m.start = i then bondToks m.bond ++ [Tok.digit m.digit] else [])
        ++ marksOpensAt rest i := by
  simp [marksOpensAt]

theorem marksClosesAt_cons (m : Mark) (rest : List Mark) (i : Nat) :
    marksClosesAt (m :: rest) i
      = (if m.stop = some i then [Tok.digit m.digit] else [])
        ++ marksClosesAt rest i := by
  simp [marksClosesAt]

theorem marksOpensAt_silent (marks : List Mark) (i : Nat)
    (h : ∀ m ∈ marks, m.start ≠ i) : marksOpensAt marks i = [] := by
  induction marks with
  | nil => rfl
  | cons m rest ih =>
    rw [marksOpensAt_cons, if_neg (h m (by simp)), List.nil_append]
    exact ih fun m2 hm2 => h m2 (by simp [hm2])

theorem marksClosesAt_silent (marks : List Mark) (i : Nat)
    (h : ∀ m ∈ marks, m.stop ≠ some i) : marksClosesAt marks i = [] := by
  induction marks with
  | nil => rfl
  | cons m rest ih =>
    rw [marksClosesAt_cons, if_neg (h m (by simp)), List.nil_append]
    exact ih fun m2 hm2 => h m2 (by simp [hm2])

theorem runWalk_cons (b : List (Option Bond)) (t : Atts) (mk : List Mark)
    (a : String) (l : List String) (k : Nat) :
    runWalk b t mk (a :: l) k
      = (if k = 0 then [] else bondToks (b.getD (k - 1) none))
        ++ [Tok.atom a] ++ marksClosesAt mk k ++ marksOpensAt mk k
        ++ emitAttGroup (attsAt t k)
        ++ runWalk b t mk l (k + 1) := by
  simp only [runWalk, List.append_assoc]

theorem runWalk_append (b : List (Option Bond)) (t : Atts) (mk : List Mark)
    (l1 l2 : List String) (k : Nat) :
    runWalk b t mk (l1 ++ l2) k
      = runWalk b t mk l1 k ++ runWalk b t mk l2 (k + l1.length) := by
  induction l1 generalizing k with
  | nil => simp [runWalk]
  | cons a l1 ih =>
    rw [List.cons_append, runWalk_cons, runWalk_cons, ih (k + 1)]
    simp only [List.length_cons, List.append_assoc]
    have : k + 1 + l1.length = k + (l1.length + 1) := by omega
    rw [this]

theorem runWalk_congr (b1 b2 : List (Option Bond)) (t1 t2 : Atts)
    (mk1 mk2 : List Mark) (l : List String) (k : Nat)
    (hb : ∀ m, m < l.length → 0 < k + m →
      b1.getD (k + m - 1) none = b2.getD (k + m - 1) none)
    (ht : ∀ m, m < l.length → attsAt t1 (k + m) = attsAt t2 (k + m))
    (hc : ∀ m, m < l.length → marksClosesAt mk1 (k + m) = marksClosesAt mk2 (k + m))
    (ho : ∀ m, m < l.length → marksOpensAt mk1 (k + m) = marksOpensAt mk2 (k + m)) :
    runWalk b1 t1 mk1 l k = runWalk b2 t2 mk2 l k := by
  induction l generalizing k with
  | nil => simp [runWalk]
  | cons a l ih =>
    rw [runWalk_cons, runWalk_cons]
    have hb0 := hb 0 (by simp)
    have ht0 := ht 0 (by simp)
    have hc0 := hc 0 (by simp)
    have ho0 := ho 0 (by simp)
    simp only [Nat.add_zero] at hb0 ht0 hc0 ho0
    have htail := ih (k + 1)
      (fun m hm hp => by
        have := hb (m + 1) (by simpa using Nat.succ_lt_succ hm) (by omega)
        simpa [Nat.add_comm, Nat.add_assoc, Nat.add_left_comm] using this)
      (fun m hm => by
        have := ht (m + 1) (by simpa using Nat.succ_lt_succ hm)
        simpa [Nat.add_comm, Nat.add_assoc, Nat.add_left_comm] using this)
      (fun m hm => by
        have := hc (m + 1) (by simpa using Nat.succ_lt_succ hm)
        simpa [Nat.add_comm, Nat.add_assoc, Nat.add_left_comm] using this)
      (fun m hm => by
        have := ho (m + 1) (by simpa using Nat.succ_lt_succ hm)
        simpa [Nat.add_comm, Nat.add_assoc, Nat.add_left_comm] using this)
    by_cases hk : k = 0
    · subst hk
      rw [ht0, hc0, ho0, htail]
      simp
    · rw [if_neg hk, if_neg hk, hb0 (by omega), ht0, hc0, ho0, htail]

/-- Appending one atom to a run appends its entering bond symbol and its
atom token to the emission, provided the new position carries nothing. -/
theorem runWalk_snoc (bonds : List (Option Bond)) (atts : Atts) (mk : List Mark)
    (atoms : List String) (a : String) (pnd : Option Bond)
    (hlen : bonds.length + 1 = atoms.length)
    (hatoms : atoms ≠ [])
    (hatts : ∀ e ∈ atts, e.1 < atoms.length)
    (hmk : ∀ m ∈ mk, MarkOk m atoms.length) :
    runWalk (bonds ++ [pnd]) atts mk (atoms ++ [a]) 0
      = runWalk bonds atts mk atoms 0 ++ bondToks pnd ++ [Tok.atom a] := by
  rw [runWalk_append]
  have hcongr : runWalk (bonds ++ [pnd]) atts mk atoms 0
      = runWalk bonds atts mk atoms 0 := by
    apply runWalk_congr
    · intro m hm hpos
      rw [Nat.zero_add] at hpos ⊢
      exact getD_append_left bonds [pnd] (m - 1) none (by omega)
    · intro m _; rfl
    · intro m _; rfl
    · intro m _; rfl
  rw [hcongr, Nat.zero_add]
  have hnz : atoms.length ≠ 0 := fun h => hatoms (List.length_eq_zero.mp h)
  have hlast : runWalk (bonds ++ [pnd]) atts mk [a] atoms.length
      = bondToks pnd ++ [Tok.atom a] := by
    rw [runWalk_cons, if_neg hnz,
      show atoms.length - 1 = bonds.length by omega, getD_concat_length]
    rw [marksClosesAt_silent mk atoms.length (fun m hm hc => by
      have := (hmk m hm).2 atoms.length hc
      omega)]
    rw [marksOpensAt_silent mk atoms.length (fun m hm => by
      have := (hmk m hm).1
      omega)]
    rw [attsAt_of_not_mem atts atoms.length (fun e he => by
      have := hatts e he; omega)]
    simp [emitAttGroup, runWalk]
  rw [hlast]
  simp [List.append_assoc]

/-- Tokens appended at the last position of a walk land at the end of the
emission: if the closure-token rows of two maps agree below the last
position and at the last position the second map's row extends the first's
by `extra`, and the last position carries no attachments, then the walk
over the second map is the walk over the first followed by `extra`. -/
theorem runWalk_rows_append (bonds : List (Option Bond)) (atts : Atts)
    (mk1 mk2 : List Mark) (extra : List Tok) :
    ∀ (l : List String) (k : Nat), l ≠ [] →
    (∀ i, i < k + l.length - 1 →
      marksClosesAt mk2 i = marksClosesAt mk1 i
        ∧ marksOpensAt mk2 i = marksOpensAt mk1 i) →
    (marksClosesAt mk2 (k + l.length - 1) ++ marksOpensAt mk2 (k + l.length - 1)
      = marksClosesAt mk1 (k + l.length - 1)
        ++ (marksOpensAt mk1 (k + l.length - 1) ++ extra)) →
    attsAt atts (k + l.length - 1) = [] →
    runWalk bonds atts mk2 l k = runWalk bonds atts mk1 l k ++ extra := by
  intro l
  induction l with
  | nil => intro k h; exact absurd rfl h
  | cons a l2 ih =>
    intro k _ hrows hlast hatts
    cases l2 with
    | nil =>
      simp only [List.length_cons, List.length_nil] at hlast hatts
      have hk : k + (0 + 1) - 1 = k := by omega
      rw [hk] at hlast hatts
      rw [runWalk_cons, runWalk_cons, hatts]
      simp only [emitAttGroup, runWalk, List.append_nil, List.append_assoc]
      rw [hlast]
    | cons b l3 =>
      have hpos : k + (a :: b :: l3).length - 1 = (k + 1) + (b :: l3).length - 1 := by
        simp only [List.length_cons]; omega
      rw [hpos] at hlast hatts
      rw [runWalk_cons bonds atts mk2 a (b :: l3) k,
        runWalk_cons bonds atts mk1 a (b :: l3) k]
      have hk0 := hrows k (by simp only [List.length_cons]; omega)
      rw [ih (k + 1) (by simp)
        (fun i hi => hrows i (by
          simp only [List.length_cons] at hi ⊢
          omega))
        hlast hatts]
      rw [hk0.1, hk0.2]
      simp [List.append_assoc]

/-- Attaching a parsed branch at the last position appends its
parenthesized serialization to the run's emission. -/
theorem runWalk_addAtt (bonds : List (Option Bond)) (atts : Atts)
    (mk : List Mark) (ast : Ast) :
    ∀ (l : List String) (k : Nat), l ≠ [] →
    runWalk bonds (addAtt atts (k + l.length - 1) ast) mk l k
      = runWalk bonds atts mk l k
        ++ (Tok.lparen :: (serializeToks ast ++ [Tok.rparen])) := by
  intro l
  induction l with
  | nil => intro k h; exact absurd rfl h
  | cons a l2 ih =>
    intro k _
    cases l2 with
    | nil =>
      have hk : k + ([a] : List String).length - 1 = k := by simp
      rw [hk, runWalk_cons, runWalk_cons]
      rw [attsAt_addAtt atts k ast k, if_pos rfl, emitAttGroup_append]
      simp [emitAttGroup, runWalk, List.append_assoc]
    | cons b l3 =>
      have hpos : k + (a :: b :: l3).length - 1 = (k + 1) + (b :: l3).length - 1 := by
        simp only [List.length_cons]; omega
      rw [hpos,
        runWalk_cons bonds (addAtt atts ((k + 1) + (b :: l3).length - 1) ast) mk
          a (b :: l3) k,
        runWalk_cons bonds atts mk a (b :: l3) k,
        ih (k + 1) (by simp)]
      rw [attsAt_addAtt]
      rw [if_neg (show ¬((k + 1) + (b :: l3).length - 1 = k) from by
        simp only [List.length_cons]
        omega)]
      simp [List.append_assoc]

theorem emitState_eq (st : PState) :
    emitState st
      = emitStack st.stack [] ++ (emitRun st.run ++ bondToks st.pending) := by
  rw [emitState, emitStack_acc]

theorem emitRun_empty_atoms (r : Run) (h : r.atoms = []) : emitRun r = [] := by
  rw [emitRun, h]
  rfl

theorem addAtt_bound (atts : Atts) (q : Nat) (ast : Ast) (m : Nat)
    (hatts : ∀ e ∈ atts, e.1 < m) (hq : q < m) :
    ∀ e ∈ addAtt atts q ast, e.1 < m := by
  induction atts with
  | nil =>
    intro e he
    simp only [addAtt, List.mem_singleton] at he
    rw [he]
    exact hq
  | cons e0 rest ih =>
    obtain ⟨q0, l0⟩ := e0
    cases rest with
    | nil =>
      intro e he
      by_cases h0 : q0 = q
      · simp only [addAtt, if_pos h0, List.mem_singleton] at he
        rw [he]
        simpa using hatts (q0, l0) (by simp)
      · simp only [addAtt, if_neg h0] at he
        rcases (by simpa using he : e = (q0, l0) ∨ e = (q, [ast])) with he | he
        · rw [he]; simpa using hatts (q0, l0) (by simp)
        · rw [he]; simpa using hq
    | cons e2 rest2 =>
      intro e he
      simp only [addAtt] at he
      rcases (by simpa using he : e = (q0, l0) ∨ e ∈ addAtt (e2 :: rest2) q ast)
        with he | he
      · rw [he]; simpa using hatts (q0, l0) (by simp)
      · exact ih (fun e' he' => hatts e' (by simp [he'])) e he

theorem findOpen_spec (n : Nat) :
    ∀ (marks : List Mark) (k : Nat) (m : Mark),
      findOpen marks n = some (k, m) →
      m.digit = n ∧ m.stop = none
        ∧ marks = marks.take k ++ m :: marks.drop (k + 1)
        ∧ ∀ m2, marks.set k m2 = marks.take k ++ m2 :: marks.drop (k + 1) := by
  intro marks
  induction marks with
  | nil => intro k m h; simp [findOpen] at h
  | cons m0 rest ih =>
    intro k m h
    simp only [findOpen] at h
    by_cases h0 : m0.digit = n ∧ m0.stop = none
    · rw [if_pos h0] at h
      injection h with h
      injection h with h1 h2
      subst h1
      subst h2
      exact ⟨h0.1, h0.2, rfl, fun m2 => rfl⟩
    · rw [if_neg h0] at h
      cases hrec : findOpen rest n with
      | none => rw [hrec] at h; exact absurd h (by simp)
      | some km =>
        obtain ⟨k2, m2⟩ := km
        rw [hrec] at h
        simp only at h
        injection h with h
        injection h with h1 h2
        subst h1
        subst h2
        obtain ⟨ha, hb, hc, hd⟩ := ih k2 m2 hrec
        refine ⟨ha, hb, ?_, ?_⟩
        · show m0 :: rest
            = (m0 :: rest).take (k2 + 1) ++ m2 :: (m0 :: rest).drop (k2 + 1 + 1)
          rw [List.take_succ_cons, List.drop_succ_cons]
          rw [List.cons_append]
          exact congrArg (List.cons m0) hc
        · intro m3
          show (m0 :: rest).set (k2 + 1) m3
            = (m0 :: rest).take (k2 + 1) ++ m3 :: (m0 :: rest).drop (k2 + 1 + 1)
          rw [List.take_succ_cons, List.drop_succ_cons, List.cons_append,
            List.set_cons_succ]
          congr 1
          exact hd m3

theorem firstOpen_none (marks : List Mark) (h : firstOpen marks = none) :
    ∀ m ∈ marks, m.stop ≠ none := by
  induction marks with
  | nil => intro m hm; simp at hm
  | cons m0 rest ih =>
    intro m hm
    simp only [firstOpen] at h
    by_cases h0 : m0.stop = none
    · rw [if_pos h0] at h; exact absurd h (by simp)
    · rw [if_neg h0] at h
      rcases List.mem_cons.mp hm with hm | hm
      · rw [hm]; exact h0
      · exact ih h m hm

theorem crossesB_iff (marks : List Mark) (c : Nat) :
    crossesB marks c = true ↔ ∃ m ∈ marks, m.start < c ∧ c ≤ m.stopD := by
  simp [crossesB, List.any_eq_true]

theorem coveredB_iff (marks : List Mark) (p : Nat) :
    coveredB marks p = true ↔ ∃ m ∈ marks, m.start ≤ p ∧ p ≤ m.stopD := by
  simp [coveredB, List.any_eq_true]

theorem clusterEnd_spec (marks : List Mark) (n : Nat)
    (hM : ∀ m ∈ marks, m.stopD < n) :
    ∀ (fuel a : Nat), n ≤ fuel + a → a < n →
      a ≤ clusterEnd marks fuel a
        ∧ clusterEnd marks fuel a < n
        ∧ crossesB marks (clusterEnd marks fuel a + 1) = false
        ∧ ∀ c, a < c → c ≤ clusterEnd marks fuel a → crossesB marks c = true := by
  intro fuel
  induction fuel with
  | zero =>
    intro a h1 h2
    exact absurd h2 (by omega)
  | succ fuel ih =>
    intro a h1 h2
    simp only [clusterEnd]
    by_cases hcr : crossesB marks (a + 1) = true
    · rw [if_pos hcr]
      have ha1 : a + 1 < n := by
        obtain ⟨m, hm, hm2⟩ := (crossesB_iff marks (a + 1)).mp hcr
        have := hM m hm
        omega
      obtain ⟨ih1, ih2, ih3, ih4⟩ := ih (a + 1) (by omega) ha1
      refine ⟨by omega, ih2, ih3, ?_⟩
      intro c hc1 hc2
      by_cases hca : c = a + 1
      · rw [hca]; exact hcr
      · exact ih4 c (by omega) hc2
    · rw [if_neg hcr]
      refine ⟨Nat.le_refl a, h2, by simpa using hcr, ?_⟩
      intro c hc1 hc2
      omega

theorem gapEnd_spec (marks : List Mark) (n : Nat) :
    ∀ (fuel a : Nat), n ≤ fuel + a + 1 → a < n → coveredB marks a = false →
      a ≤ gapEnd marks n fuel a
        ∧ gapEnd marks n fuel a < n
        ∧ (∀ c, a ≤ c → c ≤ gapEnd marks n fuel a → coveredB marks c = false)
        ∧ (gapEnd marks n fuel a + 1 = n
            ∨ coveredB marks (gapEnd marks n fuel a + 1) = true) := by
  intro fuel
  induction fuel with
  | zero =>
    intro a hfa ha hcov
    simp only [gapEnd]
    refine ⟨Nat.le_refl a, ha, ?_, Or.inl (by omega)⟩
    intro c hc1 hc2
    have : c = a := by omega
    rw [this]; exact hcov
  | succ fuel ih =>
    intro a hfa ha hcov
    simp only [gapEnd]
    by_cases hnext : a + 1 < n ∧ ¬ coveredB marks (a + 1) = true
    · rw [if_pos hnext]
      obtain ⟨ih1, ih2, ih3, ih4⟩ := ih (a + 1) (by omega) hnext.1
        (by simpa using hnext.2)
      refine ⟨by omega, ih2, ?_, ih4⟩
      intro c hc1 hc2
      by_cases hca : c = a
      · rw [hca]; exact hcov
      · exact ih3 c (by omega) hc2
    · rw [if_neg hnext]
      refine ⟨Nat.le_refl a, ha, ?_, ?_⟩
      · intro c hc1 hc2
        have : c = a := by omega
        rw [this]; exact hcov
      · rcases Nat.lt_or_ge (a + 1) n with h | h
        · right
          by_contra hcc
          exact hnext ⟨h, fun hvv => hcc hvv⟩
        · left; omega

theorem flatMap_filter_silent {α β} (P : α → Bool) (f : α → List β) :
    ∀ (l : List α), (∀ x ∈ l, P x = false → f x = []) →
      l.flatMap f = (l.filter P).flatMap f := by
  intro l
  induction l with
  | nil => intro h; rfl
  | cons x rest ih =>
    intro h
    by_cases hx : P x = true
    · rw [List.filter_cons_of_pos hx]
      simp only [List.flatMap_cons]
      rw [ih (fun y hy => h y (by simp [hy]))]
    · rw [List.filter_cons_of_neg (by simpa using hx)]
      simp only [List.flatMap_cons]
      rw [h x (by simp) (by simpa using hx), List.nil_append]
      exact ih (fun y hy => h y (by simp [hy]))

theorem spanBonds_len (bonds : List (Option Bond)) (m : Mark)
    (hlen : m.stopD ≤ bonds.length) :
    ((bonds.drop m.start).take (m.stopD - m.start)).length = m.stopD - m.start := by
  simp only [List.length_take, List.length_drop]
  omega

theorem spanBonds_last (bonds : List (Option Bond)) (m : Mark)
    (hlen : m.stopD ≤ bonds.length) :
    (spanBonds bonds m).getD (m.stopD - m.start) none = m.bond := by
  rw [spanBonds]
  have h2 := getD_concat_length ((bonds.drop m.start).take (m.stopD - m.start))
    m.bond none
  rw [spanBonds_len bonds m hlen] at h2
  exact h2

theorem spanBonds_interior (bonds : List (Option Bond)) (m : Mark) (x : Nat)
    (hx : x < m.stopD - m.start) (hlen : m.stopD ≤ bonds.length) :
    (spanBonds bonds m).getD x none = bonds.getD (m.start + x) none := by
  rw [spanBonds]
  rw [getD_append_left _ _ _ _ (by rw [spanBonds_len bonds m hlen]; exact hx)]
  rw [getD_take _ _ _ _ hx, getD_drop]

theorem fusedClosesAt_cons (x : Ast) (rest : List Ast) (p : Nat) :
    fusedClosesAt (x :: rest) p
      = (match x with
         | .ring _ size rn off _ _ _ =>
             if off + size = p + 1 then [Tok.digit rn] else []
         | _ => []) ++ fusedClosesAt rest p := by
  simp [fusedClosesAt]

theorem fusedOpensAt_cons (x : Ast) (rest : List Ast) (p : Nat) :
    fusedOpensAt (x :: rest) p
      = (match x with
         | .ring _ size rn off _ _ bonds =>
             if off = p then bondToks (bonds.getD (size - 1) none) ++ [Tok.digit rn]
             else []
         | _ => []) ++ fusedOpensAt rest p := by
  simp [fusedOpensAt]

theorem fusedAttsAt_cons (x : Ast) (rest : List Ast) (p : Nat) :
    fusedAttsAt (x :: rest) p
      = (match x with
         | .ring _ _ _ off _ atts _ =>
             if coversAst x p then attsAt atts (p - off) else []
         | _ => []) ++ fusedAttsAt rest p := by
  simp [fusedAttsAt]

theorem fusedAtomAt_cons (x : Ast) (rest : List Ast) (q : Nat) :
    fusedAtomAt (x :: rest) q
      = if coversAst x q
        then (match x with
              | .ring base _ _ off subs _ _ => (subFind subs (q - off)).getD base
              | _ => "")
        else fusedAtomAt rest q := by
  by_cases hc : coversAst x q = true
  · rw [if_pos hc]
    have hf : List.find? (fun y => coversAst y q) (x :: rest) = some x :=
      List.find?_cons_of_pos rest hc
    simp only [fusedAtomAt, hf]
    cases x <;> rfl
  · rw [if_neg (by simpa using hc)]
    have hf : List.find? (fun y => coversAst y q) (x :: rest)
        = List.find? (fun y => coversAst y q) rest :=
      List.find?_cons_of_neg rest (by simpa using hc)
    simp only [fusedAtomAt, hf]

theorem fusedBondAt_cons (x : Ast) (rest : List Ast) (q : Nat) :
    fusedBondAt (x :: rest) q
      = if coversInner x q
        then (match x with
              | .ring _ _ _ off _ _ bonds => bonds.getD (q - off - 1) none
              | _ => none)
        else fusedBondAt rest q := by
  by_cases hc : coversInner x q = true
  · rw [if_pos hc]
    have hf : List.find? (fun y => coversInner y q) (x :: rest) = some x :=
      List.find?_cons_of_pos rest hc
    simp only [fusedBondAt, hf]
    cases x <;> rfl
  · rw [if_neg (by simpa using hc)]
    have hf : List.find? (fun y => coversInner y q) (x :: rest)
        = List.find? (fun y => coversInner y q) rest :=
      List.find?_cons_of_neg rest (by simpa using hc)
    simp only [fusedBondAt, hf]

theorem fusedClosesAt_members (atoms : List String) (bonds : List (Option Bond))
    (atts : Atts) (mems : List Mark) (a p : Nat) (hap : a ≤ p) :
    ∀ (sfx : List Mark) (k : Nat),
      (∀ m ∈ sfx, a ≤ m.start ∧ m.start < m.stopD ∧ m.stop = some m.stopD) →
      fusedClosesAt (mkMembersAux atoms bonds atts mems a sfx k) (p - a)
        = marksClosesAt sfx p := by
  intro sfx
  induction sfx with
  | nil => intro k h; rfl
  | cons m rest ih =>
    intro k hf
    obtain ⟨hma, hms, hmstop⟩ := hf m (by simp)
    simp only [mkMembersAux, mkMember]
    rw [fusedClosesAt_cons, marksClosesAt_cons,
      ih (k + 1) (fun m2 hm2 => hf m2 (by simp [hm2]))]
    congr 1
    show (if (m.start - a) + (m.stopD - m.start + 1) = (p - a) + 1
        then [Tok.digit m.digit] else [])
      = (if m.stop = some p then [Tok.digit m.digit] else [])
    by_cases hc : m.stopD = p
    · rw [if_pos (by omega), if_pos (by rw [hmstop, hc])]
    · rw [if_neg (by omega), if_neg (by rw [hmstop]; simp [hc])]

theorem fusedOpensAt_members (atoms : List String) (bonds : List (Option Bond))
    (atts : Atts) (mems : List Mark) (a p : Nat) (hap : a ≤ p) :
    ∀ (sfx : List Mark) (k : Nat),
      (∀ m ∈ sfx, a ≤ m.start ∧ m.start < m.stopD ∧ m.stopD ≤ bonds.length) →
      fusedOpensAt (mkMembersAux atoms bonds atts mems a sfx k) (p - a)
        = marksOpensAt sfx p := by
  intro sfx
  induction sfx with
  | nil => intro k h; rfl
  | cons m rest ih =>
    intro k hf
    obtain ⟨hma, hms, hmb⟩ := hf m (by simp)
    simp only [mkMembersAux, mkMember]
    rw [fusedOpensAt_cons, marksOpensAt_cons,
      ih (k + 1) (fun m2 hm2 => hf m2 (by simp [hm2]))]
    congr 1
    show (if m.start - a = p - a
        then bondToks ((spanBonds bonds m).getD (m.stopD - m.start + 1 - 1) none)
          ++ [Tok.digit m.digit]
        else [])
      = (if m.start = p then bondToks m.bond ++ [Tok.digit m.digit] else [])
    by_cases hc : m.start = p
    · rw [if_pos (by omega), if_pos hc]
      rw [show m.stopD - m.start + 1 - 1 = m.stopD - m.start from by omega]
      rw [spanBonds_last bonds m hmb]
    · rw [if_neg (by omega), if_neg hc]

theorem fusedAtomAt_members (atoms : List String) (bonds : List (Option Bond))
    (atts : Atts) (mems : List Mark) (a p n : Nat)
    (hap : a ≤ p) (hn : n = atoms.length) :
    ∀ (sfx : List Mark) (k : Nat),
      (∀ m ∈ sfx, a ≤ m.start ∧ m.start < m.stopD ∧ m.stopD < n) →
      fusedAtomAt (mkMembersAux atoms bonds atts mems a sfx k) (p - a)
        = if coveredB sfx p then atoms.getD p "" else "" := by
  intro sfx
  induction sfx with
  | nil => intro k h; simp [mkMembersAux, fusedAtomAt, coveredB]
  | cons m rest ih =>
    intro k hfacts
    obtain ⟨hma, hms, hmn⟩ := hfacts m (by simp)
    simp only [mkMembersAux]
    rw [fusedAtomAt_cons]
    by_cases hc : m.start ≤ p ∧ p ≤ m.stopD
    · have hcb : coversAst (mkMember atoms bonds atts mems a k m) (p - a) = true := by
        simp only [mkMember, coversAst, decide_eq_true_eq]
        omega
      rw [if_pos hcb]
      have hcovered : coveredB (m :: rest) p = true :=
        (coveredB_iff _ _).mpr ⟨m, by simp, hc⟩
      rw [if_pos hcovered]
      simp only [mkMember]
      have hidx : p - a - (m.start - a) = p - m.start := by omega
      rw [hidx]
      have hlt : p - m.start
          < ((atoms.drop m.start).take (m.stopD - m.start + 1)).length := by
        simp only [List.length_take, List.length_drop]
        omega
      have hsf := subFind_mkSubsAux (atoms.getD m.start "")
        ((atoms.drop m.start).take (m.stopD - m.start + 1)) 0 (p - m.start) hlt
      rw [Nat.zero_add] at hsf
      rw [hsf]
      rw [getD_take _ _ _ _ (by omega), getD_drop]
      congr 1
      omega
    · have hcb : coversAst (mkMember atoms bonds atts mems a k m) (p - a) = false := by
        simp only [mkMember, coversAst]
        rw [decide_eq_false_iff_not]
        omega
      rw [if_neg (by simp [hcb])]
      rw [ih (k + 1) (fun m2 hm2 => hfacts m2 (by simp [hm2]))]
      have hskip : coveredB (m :: rest) p = coveredB rest p := by
        simp only [coveredB, List.any_cons]
        rw [decide_eq_false hc]
        simp
      rw [hskip]

theorem fusedBondAt_members (atoms : List String) (bonds : List (Option Bond))
    (atts : Atts) (mems : List Mark) (a p : Nat) (hap : a ≤ p) :
    ∀ (sfx : List Mark) (k : Nat),
      (∀ m ∈ sfx, a ≤ m.start ∧ m.start < m.stopD ∧ m.stopD ≤ bonds.length) →
      fusedBondAt (mkMembersAux atoms bonds atts mems a sfx k) (p - a)
        = if crossesB sfx p then bonds.getD (p - 1) none else none := by
  intro sfx
  induction sfx with
  | nil => intro k h; simp [mkMembersAux, fusedBondAt, crossesB]
  | cons m rest ih =>
    intro k hfacts
    obtain ⟨hma, hms, hmb⟩ := hfacts m (by simp)
    simp only [mkMembersAux]
    rw [fusedBondAt_cons]
    by_cases hc : m.start < p ∧ p ≤ m.stopD
    · have hcb : coversInner (mkMember atoms bonds atts mems a k m) (p - a) = true := by
        simp only [mkMember, coversInner, decide_eq_true_eq]
        omega
      rw [if_pos hcb]
      have hcrossed : crossesB (m :: rest) p = true :=
        (crossesB_iff _ _).mpr ⟨m, by simp, hc⟩
      rw [if_pos hcrossed]
      simp only [mkMember]
      have hidx : p - a - (m.start - a) - 1 = p - m.start - 1 := by omega
      rw [hidx]
      rw [spanBonds_interior bonds m (p - m.start - 1) (by omega) hmb]
      congr 1
      omega
    · have hcb : coversInner (mkMember atoms bonds atts mems a k m) (p - a) = false := by
        simp only [mkMember, coversInner]
        rw [decide_eq_false_iff_not]
        omega
      rw [if_neg (by simp [hcb])]
      rw [ih (k + 1) (fun m2 hm2 => hfacts m2 (by simp [hm2]))]
      have hskip : crossesB (m :: rest) p = crossesB rest p := by
        simp only [crossesB, List.any_cons]
        rw [decide_eq_false hc]
        simp
      rw [hskip]

theorem firstCoverIdx_lt_length (p : Nat) :
    ∀ (mems : List Mark) (j : Nat),
      firstCoverIdx mems p = some j → j < mems.length := by
  intro mems
  induction mems with
  | nil => intro j h; simp [firstCoverIdx] at h
  | cons m rest ih =>
    intro j h
    simp only [firstCoverIdx] at h
    by_cases h0 : m.start ≤ p ∧ p ≤ m.stopD
    · rw [if_pos h0] at h
      injection h with h
      simp only [List.length_cons]
      omega
    · rw [if_neg h0] at h
      cases hrec : firstCoverIdx rest p with
      | none => rw [hrec] at h; simp at h
      | some j2 =>
        rw [hrec] at h
        simp only [Option.map_some'] at h
        injection h with h
        have := ih j2 hrec
        simp only [List.length_cons]
        omega

theorem firstCoverIdx_mem (p : Nat) :
    ∀ (mems : List Mark) (j : Nat), firstCoverIdx mems p = some j →
      ∀ (m : Mark) (rest : List Mark), mems.drop j = m :: rest →
        m.start ≤ p ∧ p ≤ m.stopD := by
  intro mems
  induction mems with
  | nil => intro j h; simp [firstCoverIdx] at h
  | cons m0 rest0 ih =>
    intro j h m rest hdrop
    simp only [firstCoverIdx] at h
    by_cases h0 : m0.start ≤ p ∧ p ≤ m0.stopD
    · rw [if_pos h0] at h
      injection h with h
      subst h
      simp only [List.drop_zero] at hdrop
      injection hdrop with h1 h2
      subst h1
      exact h0
    · rw [if_neg h0] at h
      cases hrec : firstCoverIdx rest0 p with
      | none => rw [hrec] at h; simp at h
      | some j2 =>
        rw [hrec] at h
        simp only [Option.map_some'] at h
        injection h with h
        subst h
        exact ih j2 hrec m rest (by simpa [List.drop_succ_cons] using hdrop)

theorem coveredB_firstCoverIdx (mems : List Mark) (p : Nat)
    (h : coveredB mems p = true) : ∃ j, firstCoverIdx mems p = some j := by
  induction mems with
  | nil => simp [coveredB] at h
  | cons m rest ih =>
    simp only [firstCoverIdx]
    by_cases h0 : m.start ≤ p ∧ p ≤ m.stopD
    · exact ⟨0, if_pos h0⟩
    · rw [if_neg h0]
      have hr : coveredB rest p = true := by
        simp only [coveredB, List.any_cons] at h
        rw [decide_eq_false h0] at h
        simpa [coveredB] using h
      obtain ⟨j, hj⟩ := ih hr
      exact ⟨j + 1, by rw [hj]; rfl⟩

theorem attsAt_memberAtts (mems : List Mark) (k start : Nat) (atts : Atts) (x : Nat)
    (hcov : ∀ pos, firstCoverIdx mems pos = some k → start ≤ pos) :
    attsAt (memberAtts mems k start atts) x
      = if firstCoverIdx mems (start + x) = some k
        then attsAt atts (start + x) else [] := by
  induction atts with
  | nil => simp [memberAtts, attsAt]
  | cons e0 rest ih =>
    obtain ⟨q, l⟩ := e0
    by_cases hP : firstCoverIdx mems q = some k
    · have hq : start ≤ q := hcov q hP
      have hcons : memberAtts mems k start ((q, l) :: rest)
          = (q - start, l) :: memberAtts mems k start rest := by
        simp [memberAtts, hP]
      rw [hcons]
      show (if q - start = x then l else [])
          ++ attsAt (memberAtts mems k start rest) x = _
      rw [ih]
      by_cases hx : q - start = x
      · have hqx : q = start + x := by omega
        rw [if_pos hx, if_pos (by rw [← hqx]; exact hP),
          if_pos (by rw [← hqx]; exact hP)]
        show l ++ attsAt rest (start + x)
          = (if q = start + x then l else []) ++ attsAt rest (start + x)
        rw [if_pos hqx]
      · have hqx : q ≠ start + x := by omega
        rw [if_neg hx]
        by_cases h2 : firstCoverIdx mems (start + x) = some k
        · rw [if_pos h2, if_pos h2]
          show attsAt rest (start + x)
            = (if q = start + x then l else []) ++ attsAt rest (start + x)
          rw [if_neg hqx]
          simp
        · rw [if_neg h2, if_neg h2]
          simp
    · have hcons : memberAtts mems k start ((q, l) :: rest)
          = memberAtts mems k start rest := by
        simp [memberAtts, hP]
      rw [hcons, ih]
      by_cases h2 : firstCoverIdx mems (start + x) = some k
      · rw [if_pos h2, if_pos h2]
        have hq : q ≠ start + x := fun hc => hP (by rw [hc]; exact h2)
        show attsAt rest (start + x)
          = (if q = start + x then l else []) ++ attsAt rest (start + x)
        rw [if_neg hq]
        simp
      · rw [if_neg h2, if_neg h2]

theorem fusedAttsAt_members (atoms : List String) (bonds : List (Option Bond))
    (atts : Atts) (mems : List Mark) (a p : Nat) (hap : a ≤ p) :
    ∀ (sfx : List Mark) (k : Nat),
      sfx = mems.drop k →
      (∀ m ∈ sfx, a ≤ m.start ∧ m.start ≤ m.stopD) →
      fusedAttsAt (mkMembersAux atoms bonds atts mems a sfx k) (p - a)
        = (match firstCoverIdx mems p with
           | some j => if k ≤ j then attsAt atts p else []
           | none => []) := by
  intro sfx
  induction sfx with
  | nil =>
    intro k hdrop hfacts
    cases hf : firstCoverIdx mems p with
    | none => rfl
    | some j =>
      have hjlt := firstCoverIdx_lt_length p mems j hf
      have hklen : mems.length ≤ k := by
        have := congrArg List.length hdrop
        simp only [List.length_nil, List.length_drop] at this
        omega
      show fusedAttsAt (mkMembersAux atoms bonds atts mems a [] k) (p - a)
          = if k ≤ j then attsAt atts p else []
      rw [if_neg (show ¬(k ≤ j) from by omega)]
      rfl
  | cons m rest ih =>
    intro k hdrop hfacts
    have hma : a ≤ m.start := (hfacts m (by simp)).1
    have hmd : m.start ≤ m.stopD := (hfacts m (by simp)).2
    have hdrop' : rest = mems.drop (k + 1) := by
      have h1 : (mems.drop k).tail = rest := by rw [← hdrop, List.tail_cons]
      rw [List.tail_drop] at h1
      exact h1.symm
    have hcov_imp : ∀ pos, firstCoverIdx mems pos = some k → m.start ≤ pos :=
      fun pos hfc => (firstCoverIdx_mem pos mems k hfc m rest hdrop.symm).1
    simp only [mkMembersAux]
    rw [fusedAttsAt_cons]
    rw [ih (k + 1) hdrop' (fun m2 hm2 => hfacts m2 (by simp [hm2]))]
    by_cases hc : m.start ≤ p ∧ p ≤ m.stopD
    · have hcb : coversAst (mkMember atoms bonds atts mems a k m) (p - a) = true := by
        simp only [mkMember, coversAst, decide_eq_true_eq]
        omega
      have hhead : (match mkMember atoms bonds atts mems a k m with
          | .ring _ _ _ off _ atts2 _ =>
              if coversAst (mkMember atoms bonds atts mems a k m) (p - a)
              then attsAt atts2 (p - a - off) else []
          | _ => [])
          = (if firstCoverIdx mems p = some k then attsAt atts p else []) := by
        simp only [mkMember]
        rw [if_pos (by simpa only [mkMember] using hcb)]
        have hidx : p - a - (m.start - a) = p - m.start := by omega
        rw [hidx]
        have := attsAt_memberAtts mems k m.start atts (p - m.start) hcov_imp
        rw [this]
        rw [show m.start + (p - m.start) = p from by omega]
      rw [hhead]
      cases hf : firstCoverIdx mems p with
      | none => simp
      | some j =>
        show (if (some j : Option Nat) = some k then attsAt atts p else [])
            ++ (if k + 1 ≤ j then attsAt atts p else [])
          = if k ≤ j then attsAt atts p else []
        by_cases hjk : j = k
        · subst hjk
          rw [if_pos rfl, if_neg (show ¬(j + 1 ≤ j) from by omega),
            if_pos (show j ≤ j from by omega)]
          simp
        · rw [if_neg (fun hc2 => hjk (Option.some.inj hc2))]
          by_cases hkj : k ≤ j
          · rw [if_pos (show k + 1 ≤ j from by omega), if_pos hkj]
            simp
          · rw [if_neg (show ¬(k + 1 ≤ j) from by omega), if_neg hkj]
            simp
    · have hcb : ¬(coversAst (mkMember atoms bonds atts mems a k m) (p - a) = true) := by
        simp only [mkMember, coversAst, decide_eq_true_eq]
        omega
      have hnotk : firstCoverIdx mems p ≠ some k := by
        intro hfc
        exact hc (firstCoverIdx_mem p mems k hfc m rest hdrop.symm)
      have hhead : (match mkMember atoms bonds atts mems a k m with
          | .ring _ _ _ off _ atts2 _ =>
              if coversAst (mkMember atoms bonds atts mems a k m) (p - a)
              then attsAt atts2 (p - a - off) else []
          | _ => []) = ([] : List Ast) := by
        simp only [mkMember]
        rw [if_neg (by simpa only [mkMember] using hcb)]
      rw [hhead, List.nil_append]
      cases hf : firstCoverIdx mems p with
      | none => rfl
      | some j =>
        have hjk : j ≠ k := fun hc2 => hnotk (by rw [hf, hc2])
        show (if k + 1 ≤ j then attsAt atts p else [])
          = if k ≤ j then attsAt atts p else []
        by_cases hkj : k ≤ j
        · rw [if_pos (show k + 1 ≤ j from by omega), if_pos hkj]
        · rw [if_neg (show ¬(k + 1 ≤ j) from by omega), if_neg hkj]

theorem fusedSize_cons (x : Ast) (rest : List Ast) :
    fusedSize (x :: rest)
      = max (match x with | .ring _ size _ off _ _ _ => off + size | _ => 0)
          (fusedSize rest) := rfl

theorem fusedSize_members_le (atoms : List String) (bonds : List (Option Bond))
    (atts : Atts) (mems : List Mark) (a e : Nat) :
    ∀ (sfx : List Mark) (k : Nat),
      (∀ m ∈ sfx, a ≤ m.start ∧ m.start < m.stopD ∧ m.stopD ≤ e) →
      fusedSize (mkMembersAux atoms bonds atts mems a sfx k) ≤ e - a + 1 := by
  intro sfx
  induction sfx with
  | nil => intro k h; simp [mkMembersAux, fusedSize]
  | cons m rest ih =>
    intro k hf
    obtain ⟨h1, h2, h3⟩ := hf m (by simp)
    simp only [mkMembersAux, mkMember]
    rw [fusedSize_cons]
    have hrest := ih (k + 1) (fun m2 hm2 => hf m2 (by simp [hm2]))
    simp only [Nat.max_le]
    constructor
    · omega
    · exact hrest

theorem fusedSize_members (atoms : List String) (bonds : List (Option Bond))
    (atts : Atts) (mems : List Mark) (a e : Nat) :
    ∀ (sfx : List Mark) (k : Nat),
      (∀ m ∈ sfx, a ≤ m.start ∧ m.start < m.stopD ∧ m.stopD ≤ e) →
      (∃ m ∈ sfx, m.stopD = e) →
      fusedSize (mkMembersAux atoms bonds atts mems a sfx k) = e - a + 1 := by
  intro sfx
  induction sfx with
  | nil => intro k _ hex; obtain ⟨m, hm, _⟩ := hex; simp at hm
  | cons m rest ih =>
    intro k hf hex
    obtain ⟨h1, h2, h3⟩ := hf m (by simp)
    simp only [mkMembersAux, mkMember]
    rw [fusedSize_cons]
    obtain ⟨mw, hmw, hmwe⟩ := hex
    rcases List.mem_cons.mp hmw with hw | hw
    · subst hw
      have hrest := fusedSize_members_le atoms bonds atts mems a e rest (k + 1)
        (fun m2 hm2 => hf m2 (by simp [hm2]))
      have hA : (mw.start - a) + (mw.stopD - mw.start + 1) = e - a + 1 := by omega
      show max ((mw.start - a) + (mw.stopD - mw.start + 1))
          (fusedSize (mkMembersAux atoms bonds atts mems a rest (k + 1)))
        = e - a + 1
      rw [hA]
      exact Nat.max_eq_left hrest
    · have hrest := ih (k + 1) (fun m2 hm2 => hf m2 (by simp [hm2])) ⟨mw, hw, hmwe⟩
      rw [hrest]
      exact Nat.max_eq_right
        (show (m.start - a) + (m.stopD - m.start + 1) ≤ e - a + 1 from by omega)

theorem emitLinAux_cons (bonds : List (Option Bond)) (atts : Atts)
    (a : String) (l : List String) (k : Nat) :
    emitLinAux bonds atts (a :: l) k
      = (if k = 0 then [] else bondToks (bonds.getD (k - 1) none))
        ++ [Tok.atom a]
        ++ emitAttGroup (attsAt atts k)
        ++ emitLinAux bonds atts l (k + 1) := by
  simp only [emitLinAux, List.append_assoc]

theorem emitRing_eq_fused (base : String) (subs : List (Nat × String)) (atts : Atts)
    (bonds : List (Option Bond)) (rn size : Nat) :
    ∀ (fuel i : Nat), i + fuel ≤ size →
      emitRingAux base subs atts bonds rn size fuel i
        = emitFused [Ast.ring base size rn 0 subs atts bonds] fuel i := by
  intro fuel
  induction fuel with
  | zero => intro i _; simp only [emitRingAux, emitFused]
  | succ fuel ih =>
    intro i hle
    have hi : i < size := by omega
    have hatom : fusedAtomAt [Ast.ring base size rn 0 subs atts bonds] i
        = (subFind subs i).getD base := by
      rw [fusedAtomAt_cons]
      rw [if_pos (by simp only [coversAst, decide_eq_true_eq]; omega)]
      simp
    have hcl : fusedClosesAt [Ast.ring base size rn 0 subs atts bonds] i
        = (if i + 1 = size then [Tok.digit rn] else []) := by
      rw [fusedClosesAt_cons]
      show (if 0 + size = i + 1 then [Tok.digit rn] else [])
          ++ fusedClosesAt [] i = _
      by_cases hsz : i + 1 = size
      · rw [if_pos (by omega), if_pos hsz]; rfl
      · rw [if_neg (by omega), if_neg hsz]; rfl
    have hop : fusedOpensAt [Ast.ring base size rn 0 subs atts bonds] i
        = (if i = 0 then bondToks (bonds.getD (size - 1) none) ++ [Tok.digit rn]
           else []) := by
      rw [fusedOpensAt_cons]
      show (if 0 = i then bondToks (bonds.getD (size - 1) none) ++ [Tok.digit rn]
          else []) ++ fusedOpensAt [] i = _
      by_cases h0 : i = 0
      · rw [if_pos h0.symm, if_pos h0]; simp [fusedOpensAt]
      · rw [if_neg (fun hc => h0 hc.symm), if_neg h0]; rfl
    have hat : fusedAttsAt [Ast.ring base size rn 0 subs atts bonds] i
        = attsAt atts i := by
      rw [fusedAttsAt_cons]
      show (if coversAst (Ast.ring base size rn 0 subs atts bonds) i
          then attsAt atts (i - 0) else []) ++ fusedAttsAt [] i = _
      rw [if_pos (by simp only [coversAst, decide_eq_true_eq]; omega)]
      simp [fusedAttsAt]
    simp only [emitRingAux, emitFused]
    rw [hatom, hcl, hop, hat, ih (i + 1) (by omega)]
    by_cases h0 : i = 0
    · rw [if_pos h0, if_pos h0, if_pos h0]
    · have hbond : fusedBondAt [Ast.ring base size rn 0 subs atts bonds] i
          = bonds.getD (i - 1) none := by
        rw [fusedBondAt_cons]
        rw [if_pos (by simp only [coversInner, decide_eq_true_eq]; omega)]
        simp
      rw [hbond, if_neg h0, if_neg h0]

theorem runWalk_eq_lin (bonds : List (Option Bond)) (atts : Atts)
    (marks : List Mark) (bonds2 : List (Option Bond)) (atts2 : Atts) :
    ∀ (l : List String) (k a : Nat), a ≤ k →
    (∀ q, q < l.length → marksClosesAt marks (k + q) = []) →
    (∀ q, q < l.length → marksOpensAt marks (k + q) = []) →
    (∀ q, q < l.length → attsAt atts (k + q) = attsAt atts2 (k - a + q)) →
    (∀ q, q < l.length →
      (if k + q = 0 then ([] : List Tok)
       else bondToks (bonds.getD (k + q - 1) none))
        = (if k - a + q = 0 then ([] : List Tok)
           else bondToks (bonds2.getD (k - a + q - 1) none))) →
    runWalk bonds atts marks l k = emitLinAux bonds2 atts2 l (k - a) := by
  intro l
  induction l with
  | nil => intro k a _ _ _ _ _; simp only [runWalk, emitLinAux]
  | cons x l2 ih =>
    intro k a hak hcl hop hat hbd
    rw [runWalk_cons, emitLinAux_cons]
    have h0 := hbd 0 (by simp)
    have hc0 := hcl 0 (by simp)
    have ho0 := hop 0 (by simp)
    have ha0 := hat 0 (by simp)
    simp only [Nat.add_zero] at h0 hc0 ho0 ha0
    have htail := ih (k + 1) a (by omega)
      (fun q hq => by
        have := hcl (q + 1) (by simpa using Nat.succ_lt_succ hq)
        simpa [Nat.add_comm, Nat.add_assoc, Nat.add_left_comm] using this)
      (fun q hq => by
        have := hop (q + 1) (by simpa using Nat.succ_lt_succ hq)
        simpa [Nat.add_comm, Nat.add_assoc, Nat.add_left_comm] using this)
      (fun q hq => by
        have := hat (q + 1) (by simpa using Nat.succ_lt_succ hq)
        have h2 : k + 1 + q = k + (q + 1) := by omega
        have h3 : k + 1 - a + q = k - a + (q + 1) := by omega
        rw [h2, h3]
        exact this)
      (fun q hq => by
        have := hbd (q + 1) (by simpa using Nat.succ_lt_succ hq)
        have h2 : k + 1 + q = k + (q + 1) := by omega
        have h3 : k + 1 - a + q = k - a + (q + 1) := by omega
        rw [h2, h3]
        exact this)
    rw [hc0, ho0, ha0, htail]
    rw [show k + 1 - a = k - a + 1 from by omega]
    rw [h0]
    simp [List.append_assoc]

theorem runWalk_cluster (atoms : List String) (bonds : List (Option Bond))
    (atts : Atts) (marks mems : List Mark) (a e n : Nat)
    (hn : n = atoms.length)
    (hlen : bonds.length + 1 = n)
    (hM : ∀ m ∈ mems, a ≤ m.start ∧ m.start < m.stopD ∧ m.stopD ≤ e
      ∧ m.stop = some m.stopD)
    (hsilC : ∀ p, a ≤ p → p ≤ e → marksClosesAt marks p = marksClosesAt mems p)
    (hsilO : ∀ p, a ≤ p → p ≤ e → marksOpensAt marks p = marksOpensAt mems p)
    (hcov : ∀ c, a ≤ c → c ≤ e → coveredB mems c = true)
    (hcross : ∀ c, a < c → c ≤ e → crossesB mems c = true)
    (hen : e < n)
    (hbond_a : 0 < a → bonds.getD (a - 1) none = none) :
    ∀ (l : List String) (k : Nat), a ≤ k → k + l.length = e + 1 →
      l = (atoms.drop k).take (e - k + 1) →
      runWalk bonds atts marks l k
        = emitFused (mkMembersAux atoms bonds atts mems a mems 0)
            l.length (k - a) := by
  intro l
  induction l with
  | nil => intro k _ _ _; simp only [runWalk, List.length_nil, emitFused]
  | cons x l2 ih =>
    intro k hak hklen hl
    have hke : k ≤ e := by simp only [List.length_cons] at hklen; omega
    have hkn : k < n := by omega
    have hx : x = atoms.getD k "" := by
      have h1 : ((atoms.drop k).take (e - k + 1)).getD 0 "" = x := by
        rw [← hl]; rfl
      rw [getD_take _ _ _ _ (by omega), getD_drop, Nat.add_zero] at h1
      exact h1.symm
    have hatom : fusedAtomAt (mkMembersAux atoms bonds atts mems a mems 0) (k - a)
        = atoms.getD k "" := by
      rw [fusedAtomAt_members atoms bonds atts mems a k n hak hn mems 0
        (fun m hm => ⟨(hM m hm).1, (hM m hm).2.1,
          by have := (hM m hm).2.2.1; omega⟩)]
      rw [if_pos (hcov k hak hke)]
    have hbl : ∀ m ∈ mems, a ≤ m.start ∧ m.start < m.stopD
        ∧ m.stopD ≤ bonds.length := by
      intro m hm
      obtain ⟨h1, h2, h3, _⟩ := hM m hm
      exact ⟨h1, h2, by omega⟩
    have hcl : marksClosesAt marks k
        = fusedClosesAt (mkMembersAux atoms bonds atts mems a mems 0) (k - a) := by
      rw [hsilC k hak hke,
        fusedClosesAt_members atoms bonds atts mems a k hak mems 0
          (fun m hm => ⟨(hM m hm).1, (hM m hm).2.1, (hM m hm).2.2.2⟩)]
    have hop : marksOpensAt marks k
        = fusedOpensAt (mkMembersAux atoms bonds atts mems a mems 0) (k - a) := by
      rw [hsilO k hak hke,
        fusedOpensAt_members atoms bonds atts mems a k hak mems 0 hbl]
    have hat : attsAt atts k
        = fusedAttsAt (mkMembersAux atoms bonds atts mems a mems 0) (k - a) := by
      rw [fusedAttsAt_members atoms bonds atts mems a k hak mems 0 rfl
        (fun m hm => ⟨(hM m hm).1, Nat.le_of_lt (hM m hm).2.1⟩)]
      obtain ⟨j, hj⟩ := coveredB_firstCoverIdx mems k (hcov k hak hke)
      rw [hj]
      show attsAt atts k = if 0 ≤ j then attsAt atts k else []
      rw [if_pos (Nat.zero_le j)]
    have hbd : (if k = 0 then ([] : List Tok)
          else bondToks (bonds.getD (k - 1) none))
        = (if k - a = 0 then ([] : List Tok)
           else bondToks (fusedBondAt (mkMembersAux atoms bonds atts mems a mems 0)
             (k - a))) := by
      by_cases hka : k = a
      · subst hka
        rw [if_pos (show k - k = 0 from by omega)]
        by_cases h0 : k = 0
        · rw [if_pos h0]
        · rw [if_neg h0, hbond_a (by omega)]
          rfl
      · have hka2 : a < k := by omega
        rw [if_neg (by omega), if_neg (by omega)]
        rw [fusedBondAt_members atoms bonds atts mems a k (by omega) mems 0 hbl]
        rw [if_pos (hcross k (by omega) hke)]
    have htail : runWalk bonds atts marks l2 (k + 1)
        = emitFused (mkMembersAux atoms bonds atts mems a mems 0) l2.length
            (k - a + 1) := by
      cases hl2 : l2 with
      | nil => simp only [runWalk, List.length_nil, emitFused]
      | cons y l3 =>
        rw [← hl2]
        have hlen2 : (k + 1) + l2.length = e + 1 := by
          simp only [List.length_cons] at hklen; omega
        have hkelt : k < e := by
          rw [hl2] at hlen2
          simp only [List.length_cons] at hlen2
          omega
        have hl2drop : l2 = (atoms.drop (k + 1)).take (e - (k + 1) + 1) := by
          have h1 : (x :: l2).drop 1 = l2 := rfl
          rw [hl] at h1
          rw [List.drop_take, List.drop_drop] at h1
          rw [← h1]
          congr 1
          omega
        have := ih (k + 1) (by omega) hlen2 hl2drop
        rw [this]
        congr 1
        omega
    rw [runWalk_cons]
    rw [show (x :: l2).length = l2.length + 1 from rfl]
    simp only [emitFused]
    rw [hx, hatom, hcl, hop, hat, htail, hbd]

theorem cluster_comp_emit (atoms : List String) (bonds : List (Option Bond))
    (atts : Atts) (marks : List Mark) (a e n : Nat)
    (hn : n = atoms.length)
    (hlen : bonds.length + 1 = n)
    (hM : ∀ m ∈ marks, m.start < m.stopD ∧ m.stopD < n ∧ m.stop = some m.stopD)
    (hcut : crossesB marks a = false)
    (hcov : coveredB marks a = true)
    (hen : e < n)
    (hcute : crossesB marks (e + 1) = false)
    (hcross : ∀ c, a < c → c ≤ e → crossesB marks c = true)
    (hae : a ≤ e)
    (hbond_a : 0 < a → bonds.getD (a - 1) none = none) :
    serializeToks (mkComp atoms bonds atts marks a e)
      = runWalk bonds atts marks ((atoms.drop a).take (e - a + 1)) a := by
  have hmemchar : ∀ m ∈ marks, ¬ (a ≤ m.start ∧ m.stopD ≤ e) →
      m.stopD < a ∨ e < m.start := by
    intro m hm hin
    obtain ⟨h1, h2, h3⟩ := hM m hm
    by_cases hsa : m.start < a
    · left
      by_contra hge
      push_neg at hge
      have hc : crossesB marks a = true :=
        (crossesB_iff _ _).mpr ⟨m, hm, hsa, by omega⟩
      rw [hc] at hcut
      exact absurd hcut (by simp)
    · right
      push_neg at hsa
      by_contra hle
      push_neg at hle
      have hstE : e < m.stopD := by
        rcases Nat.lt_or_ge e m.stopD with h | h
        · exact h
        · exact absurd ⟨hsa, h⟩ hin
      have hc : crossesB marks (e + 1) = true :=
        (crossesB_iff _ _).mpr ⟨m, hm, by omega, by omega⟩
      rw [hc] at hcute
      exact absurd hcute (by simp)
  have hmm_of : ∀ m ∈ marks, m.start ≤ e → a ≤ m.stopD →
      m ∈ marks.filter (fun m => decide (a ≤ m.start ∧ m.stopD ≤ e)) := by
    intro m hm hse has
    refine List.mem_filter.mpr ⟨hm, ?_⟩
    simp only [decide_eq_true_eq]
    by_cases hin : a ≤ m.start ∧ m.stopD ≤ e
    · exact hin
    · rcases hmemchar m hm hin with h | h <;> omega
  have hfil_sub : ∀ m ∈ marks.filter (fun m => decide (a ≤ m.start ∧ m.stopD ≤ e)),
      m ∈ marks ∧ a ≤ m.start ∧ m.stopD ≤ e := by
    intro m hm
    have := List.mem_filter.mp hm
    exact ⟨this.1, by simpa using this.2⟩
  have hmemfacts : ∀ m ∈ marks.filter (fun m => decide (a ≤ m.start ∧ m.stopD ≤ e)),
      a ≤ m.start ∧ m.start < m.stopD ∧ m.stopD ≤ e ∧ m.stop = some m.stopD := by
    intro m hm
    obtain ⟨hmk, h1, h2⟩ := hfil_sub m hm
    obtain ⟨h3, h4, h5⟩ := hM m hmk
    exact ⟨h1, h3, h2, h5⟩
  have hsilC : ∀ p, a ≤ p → p ≤ e → marksClosesAt marks p
      = marksClosesAt (marks.filter (fun m => decide (a ≤ m.start ∧ m.stopD ≤ e))) p := by
    intro p hp1 hp2
    exact flatMap_filter_silent _
      (fun m => if m.stop = some p then [Tok.digit m.digit] else []) marks
      (fun m hm hPf => by
        have hPf : ¬(a ≤ m.start ∧ m.stopD ≤ e) := of_decide_eq_false hPf
        obtain ⟨h1, h2, h3⟩ := hM m hm
        have hne : m.stop ≠ some p := by
          rw [h3]
          intro hc
          injection hc with hc
          rcases hmemchar m hm hPf with h | h <;> omega
        show (if m.stop = some p then [Tok.digit m.digit] else []) = []
        rw [if_neg hne])
  have hsilO : ∀ p, a ≤ p → p ≤ e → marksOpensAt marks p
      = marksOpensAt (marks.filter (fun m => decide (a ≤ m.start ∧ m.stopD ≤ e))) p := by
    intro p hp1 hp2
    exact flatMap_filter_silent _
      (fun m => if m.start = p then bondToks m.bond ++ [Tok.digit m.digit] else [])
      marks
      (fun m hm hPf => by
        have hPf : ¬(a ≤ m.start ∧ m.stopD ≤ e) := of_decide_eq_false hPf
        obtain ⟨h1, h2, h3⟩ := hM m hm
        have hne : m.start ≠ p := by
          intro hc
          rcases hmemchar m hm hPf with h | h <;> omega
        show (if m.start = p then bondToks m.bond ++ [Tok.digit m.digit] else []) = []
        rw [if_neg hne])
  have hcovm : ∀ c, a ≤ c → c ≤ e →
      coveredB (marks.filter (fun m => decide (a ≤ m.start ∧ m.stopD ≤ e))) c
        = true := by
    intro c hc1 hc2
    by_cases hca : c = a
    · subst hca
      obtain ⟨m, hm, hmc⟩ := (coveredB_iff _ _).mp hcov
      exact (coveredB_iff _ _).mpr
        ⟨m, hmm_of m hm (by omega) (by omega), hmc⟩
    · have hcc : crossesB marks c = true := hcross c (by omega) hc2
      obtain ⟨m, hm, hmc⟩ := (crossesB_iff _ _).mp hcc
      exact (coveredB_iff _ _).mpr
        ⟨m, hmm_of m hm (by omega) (by omega), by omega⟩
  have hcrossm : ∀ c, a < c → c ≤ e →
      crossesB (marks.filter (fun m => decide (a ≤ m.start ∧ m.stopD ≤ e))) c
        = true := by
    intro c hc1 hc2
    obtain ⟨m, hm, hmc⟩ := (crossesB_iff _ _).mp (hcross c hc1 hc2)
    exact (crossesB_iff _ _).mpr
      ⟨m, hmm_of m hm (by omega) (by omega), hmc⟩
  have hwalk := runWalk_cluster atoms bonds atts marks
    (marks.filter (fun m => decide (a ≤ m.start ∧ m.stopD ≤ e))) a e n hn hlen
    hmemfacts hsilC hsilO hcovm hcrossm hen hbond_a
    ((atoms.drop a).take (e - a + 1)) a (Nat.le_refl a)
    (by
      simp only [List.length_take, List.length_drop]
      omega)
    rfl
  rw [hwalk, Nat.sub_self]
  have hseglen : ((atoms.drop a).take (e - a + 1)).length = e - a + 1 := by
    simp only [List.length_take, List.length_drop]
    omega
  rw [hseglen]
  cases hmems : marks.filter (fun m => decide (a ≤ m.start ∧ m.stopD ≤ e)) with
  | nil =>
    obtain ⟨m, hm, hmc⟩ := (coveredB_iff _ _).mp hcov
    have := hmm_of m hm (by omega) (by omega)
    rw [hmems] at this
    simp at this
  | cons m1 ms1 =>
    cases ms1 with
    | nil =>
      -- single span: the component is a plain Ring
      have hm1 : a ≤ m1.start ∧ m1.start < m1.stopD ∧ m1.stopD ≤ e
          ∧ m1.stop = some m1.stopD := by
        have := hmemfacts m1 (by rw [hmems]; simp)
        exact this
      have hstart : m1.start = a := by
        obtain ⟨m, hm, hmc⟩ := (coveredB_iff _ _).mp hcov
        have hmem := hmm_of m hm (by omega) (by omega)
        rw [hmems] at hmem
        have : m = m1 := by simpa using hmem
        subst this
        omega
      have hstop : m1.stopD = e := by
        by_cases hea : e = a
        · omega
        · have hcc := hcrossm e (by omega) (Nat.le_refl e)
          rw [hmems] at hcc
          obtain ⟨m, hm, hmc⟩ := (crossesB_iff _ _).mp hcc
          have : m = m1 := by simpa using hm
          subst this
          omega
      rw [mkComp, hmems]
      show serializeToks (mkMember atoms bonds atts [m1] a 0 m1) = _
      rw [show mkMember atoms bonds atts [m1] a 0 m1
        = Ast.ring (atoms.getD m1.start "") (m1.stopD - m1.start + 1) m1.digit 0
            (mkSubsAux (atoms.getD m1.start "")
              ((atoms.drop m1.start).take (m1.stopD - m1.start + 1)) 0)
            (memberAtts [m1] 0 m1.start atts)
            (spanBonds bonds m1) from by
          rw [mkMember]
          congr 1
          omega]
      rw [show serializeToks (Ast.ring (atoms.getD m1.start "")
            (m1.stopD - m1.start + 1) m1.digit 0
            (mkSubsAux (atoms.getD m1.start "")
              ((atoms.drop m1.start).take (m1.stopD - m1.start + 1)) 0)
            (memberAtts [m1] 0 m1.start atts)
            (spanBonds bonds m1))
        = emitRingAux (atoms.getD m1.start "")
            (mkSubsAux (atoms.getD m1.start "")
              ((atoms.drop m1.start).take (m1.stopD - m1.start + 1)) 0)
            (memberAtts [m1] 0 m1.start atts)
            (spanBonds bonds m1) m1.digit (m1.stopD - m1.start + 1)
            (m1.stopD - m1.start + 1) 0 from by simp only [serializeToks]]
      rw [emitRing_eq_fused _ _ _ _ _ _ _ 0 (by omega)]
      show emitFused [Ast.ring (atoms.getD m1.start "") (m1.stopD - m1.start + 1)
          m1.digit 0 (mkSubsAux (atoms.getD m1.start "")
            ((atoms.drop m1.start).take (m1.stopD - m1.start + 1)) 0)
          (memberAtts [m1] 0 m1.start atts) (spanBonds bonds m1)]
          (m1.stopD - m1.start + 1) 0
        = emitFused (mkMembersAux atoms bonds atts [m1] a [m1] 0) (e - a + 1) 0
      rw [show mkMembersAux atoms bonds atts [m1] a [m1] 0
        = [mkMember atoms bonds atts [m1] a 0 m1] from rfl]
      rw [show mkMember atoms bonds atts [m1] a 0 m1
        = Ast.ring (atoms.getD m1.start "") (m1.stopD - m1.start + 1) m1.digit 0
            (mkSubsAux (atoms.getD m1.start "")
              ((atoms.drop m1.start).take (m1.stopD - m1.start + 1)) 0)
            (memberAtts [m1] 0 m1.start atts)
            (spanBonds bonds m1) from by
          rw [mkMember]
          congr 1
          omega]
      congr 1
      omega
    | cons m2 ms2 =>
      -- several spans: the component is a FusedRing
      rw [mkComp, hmems]
      show serializeToks (Ast.fusedRing (mkMembersAux atoms bonds atts
          (m1 :: m2 :: ms2) a (m1 :: m2 :: ms2) 0)) = _
      rw [show serializeToks (Ast.fusedRing (mkMembersAux atoms bonds atts
          (m1 :: m2 :: ms2) a (m1 :: m2 :: ms2) 0))
        = emitFused (mkMembersAux atoms bonds atts (m1 :: m2 :: ms2) a
            (m1 :: m2 :: ms2) 0)
            (fusedSize (mkMembersAux atoms bonds atts (m1 :: m2 :: ms2) a
              (m1 :: m2 :: ms2) 0)) 0 from by simp only [serializeToks]]
      have hae2 : a < e := by
        have := hmemfacts m1 (by rw [hmems]; simp)
        omega
      have hexist : ∃ m ∈ (m1 :: m2 :: ms2), m.stopD = e := by
        have hcc := hcrossm e (by omega) (Nat.le_refl e)
        rw [hmems] at hcc
        obtain ⟨m, hm, hmc⟩ := (crossesB_iff _ _).mp hcc
        have hfacts := hmemfacts m (by rw [hmems]; exact hm)
        exact ⟨m, hm, by omega⟩
      have hsz := fusedSize_members atoms bonds atts (m1 :: m2 :: ms2) a e
        (m1 :: m2 :: ms2) 0
        (fun m hm => by
          have := hmemfacts m (by rw [hmems]; exact hm)
          exact ⟨this.1, this.2.1, this.2.2.1⟩)
        hexist
      rw [hsz]

theorem gap_comp_emit (atoms : List String) (bonds : List (Option Bond))
    (atts : Atts) (marks : List Mark) (a e n : Nat)
    (hn : n = atoms.length)
    (hlen : bonds.length + 1 = n)
    (hM : ∀ m ∈ marks, m.start < m.stopD ∧ m.stopD < n ∧ m.stop = some m.stopD)
    (hatt : ∀ x ∈ atts, x.1 < n)
    (hgap : ∀ c, a ≤ c → c ≤ e → coveredB marks c = false)
    (hae : a ≤ e) (hen : e < n)
    (hbond_a : 0 < a → bonds.getD (a - 1) none = none) :
    serializeToks (mkComp atoms bonds atts marks a e)
      = runWalk bonds atts marks ((atoms.drop a).take (e - a + 1)) a := by
  have hfil : marks.filter (fun m => decide (a ≤ m.start ∧ m.stopD ≤ e)) = [] := by
    rw [List.filter_eq_nil]
    intro m hm
    simp only [decide_eq_true_eq]
    intro hin
    obtain ⟨h1, h2, h3⟩ := hM m hm
    have hcv : coveredB marks m.start = true :=
      (coveredB_iff _ _).mpr ⟨m, hm, Nat.le_refl _, by omega⟩
    have := hgap m.start (by omega) (by omega)
    rw [hcv] at this
    exact absurd this (by simp)
  rw [mkComp, hfil]
  show serializeToks (Ast.linear ((atoms.drop a).take (e - a + 1))
      ((bonds.drop a).take (e - a)) (sliceAtts atts a e)) = _
  rw [show serializeToks (Ast.linear ((atoms.drop a).take (e - a + 1))
      ((bonds.drop a).take (e - a)) (sliceAtts atts a e))
    = emitLinAux ((bonds.drop a).take (e - a)) (sliceAtts atts a e)
        ((atoms.drop a).take (e - a + 1)) 0 from by simp only [serializeToks]]
  have hseglen : ((atoms.drop a).take (e - a + 1)).length = e - a + 1 := by
    simp only [List.length_take, List.length_drop]
    omega
  have := runWalk_eq_lin bonds atts marks ((bonds.drop a).take (e - a))
    (sliceAtts atts a e) ((atoms.drop a).take (e - a + 1)) a a (Nat.le_refl a)
    (fun q hq => by
      rw [hseglen] at hq
      apply marksClosesAt_silent
      intro m hm hc
      obtain ⟨h1, h2, h3⟩ := hM m hm
      rw [h3] at hc
      injection hc with hc
      have hcv : coveredB marks (a + q) = true :=
        (coveredB_iff _ _).mpr ⟨m, hm, by omega, by omega⟩
      have := hgap (a + q) (by omega) (by omega)
      rw [hcv] at this
      exact absurd this (by simp))
    (fun q hq => by
      rw [hseglen] at hq
      apply marksOpensAt_silent
      intro m hm hc
      obtain ⟨h1, h2, h3⟩ := hM m hm
      have hcv : coveredB marks (a + q) = true :=
        (coveredB_iff _ _).mpr ⟨m, hm, by omega, by omega⟩
      have := hgap (a + q) (by omega) (by omega)
      rw [hcv] at this
      exact absurd this (by simp))
    (fun q hq => by
      rw [hseglen] at hq
      rw [attsAt_sliceAtts]
      rw [Nat.sub_self, Nat.zero_add]
      rw [if_pos (by omega)])
    (fun q hq => by
      rw [hseglen] at hq
      rw [Nat.sub_self, Nat.zero_add]
      by_cases hq0 : q = 0
      · subst hq0
        rw [if_pos rfl]
        by_cases ha0 : a = 0
        · rw [if_pos (by omega)]
        · rw [if_neg (by omega), show a + 0 - 1 = a - 1 from by omega,
            hbond_a (by omega)]
          rfl
      · rw [if_neg (by omega), if_neg hq0]
        rw [getD_take _ _ _ _ (by omega), getD_drop]
        rw [show a + (q - 1) = a + q - 1 from by omega])
  rw [this, Nat.sub_self]

theorem buildComps_emit (atoms : List String) (bonds : List (Option Bond))
    (atts : Atts) (marks : List Mark) (n : Nat)
    (hn : n = atoms.length)
    (hlen : n ≠ 0 → bonds.length + 1 = n)
    (hM : ∀ m ∈ marks, m.start < m.stopD ∧ m.stopD < n ∧ m.stop = some m.stopD)
    (hatt : ∀ x ∈ atts, x.1 < n) :
    ∀ (fuel a : Nat) (cs : List Ast),
      crossesB marks a = false →
      buildComps atoms bonds atts marks n fuel a = .ok cs →
      emitComps cs = runWalk bonds atts marks (atoms.drop a) a := by
  intro fuel
  induction fuel with
  | zero => intro a cs hcut hbc; exact absurd hbc (by simp [buildComps])
  | succ fuel ih =>
    intro a cs hcut hbc
    simp only [buildComps] at hbc
    by_cases hna : n ≤ a
    · rw [if_pos hna] at hbc
      injection hbc with hbc
      subst hbc
      have hd : atoms.drop a = [] := List.drop_eq_nil_of_le (by omega)
      rw [hd]
      simp only [emitComps, runWalk]
    · rw [if_neg hna] at hbc
      by_cases hbd : 0 < a ∧ bonds.getD (a - 1) none ≠ none
      · rw [if_pos hbd] at hbc; exact absurd hbc (by simp)
      · rw [if_neg hbd] at hbc
        have hbond_a : 0 < a → bonds.getD (a - 1) none = none := by
          intro h2
          by_contra hc
          exact hbd ⟨h2, hc⟩
        have han : a < n := by omega
        have hlen' : bonds.length + 1 = n := hlen (by omega)
        by_cases hcov : coveredB marks a = true
        · rw [if_pos hcov] at hbc
          obtain ⟨hE1, hE2, hE3, hE4⟩ := clusterEnd_spec marks n
            (fun m hm => (hM m hm).2.1) n a (by omega) han
          cases hrec : buildComps atoms bonds atts marks n fuel
              (clusterEnd marks n a + 1) with
          | error er => rw [hrec] at hbc; exact absurd hbc (by simp)
          | ok cs2 =>
            rw [hrec] at hbc
            simp only at hbc
            injection hbc with hbc
            subst hbc
            have hrest := ih (clusterEnd marks n a + 1) cs2 hE3 hrec
            have hsplit : atoms.drop a
                = (atoms.drop a).take (clusterEnd marks n a - a + 1)
                  ++ atoms.drop (clusterEnd marks n a + 1) := by
              conv_lhs =>
                rw [← List.take_append_drop (clusterEnd marks n a - a + 1)
                  (atoms.drop a)]
              congr 1
              rw [List.drop_drop]
              congr 1
              omega
            have hseglen : ((atoms.drop a).take (clusterEnd marks n a - a + 1)).length
                = clusterEnd marks n a - a + 1 := by
              simp only [List.length_take, List.length_drop]
              omega
            rw [show emitComps (mkComp atoms bonds atts marks a
                  (clusterEnd marks n a) :: cs2)
              = serializeToks (mkComp atoms bonds atts marks a
                  (clusterEnd marks n a)) ++ emitComps cs2 from by
                simp only [emitComps]]
            conv_rhs => rw [hsplit]
            rw [runWalk_append, hseglen, hrest]
            rw [show a + (clusterEnd marks n a - a + 1)
              = clusterEnd marks n a + 1 from by omega]
            congr 1
            exact cluster_comp_emit atoms bonds atts marks a
              (clusterEnd marks n a) n hn hlen' hM hcut hcov hE2 hE3 hE4 hE1
              hbond_a
        · have hcovf : coveredB marks a = false := by
            cases h2 : coveredB marks a
            · rfl
            · exact absurd h2 hcov
          rw [if_neg (by rw [hcovf]; simp)] at hbc
          obtain ⟨hE1, hE2, hE3, hE4⟩ := gapEnd_spec marks n n a (by omega) han hcovf
          cases hrec : buildComps atoms bonds atts marks n fuel
              (gapEnd marks n n a + 1) with
          | error er => rw [hrec] at hbc; exact absurd hbc (by simp)
          | ok cs2 =>
            rw [hrec] at hbc
            simp only at hbc
            injection hbc with hbc
            subst hbc
            have hcutnext : crossesB marks (gapEnd marks n n a + 1) = false := by
              cases h2 : crossesB marks (gapEnd marks n n a + 1)
              · rfl
              · obtain ⟨m, hm, hmc⟩ := (crossesB_iff _ _).mp h2
                obtain ⟨hh1, hh2, hh3⟩ := hM m hm
                by_cases hsa : a ≤ m.start
                · have hcv : coveredB marks m.start = true :=
                    (coveredB_iff _ _).mpr ⟨m, hm, Nat.le_refl _, by omega⟩
                  have := hE3 m.start hsa (by omega)
                  rw [hcv] at this
                  exact absurd this (by simp)
                · have hcc : crossesB marks a = true :=
                    (crossesB_iff _ _).mpr ⟨m, hm, by omega, by omega⟩
                  rw [hcc] at hcut
                  exact absurd hcut (by simp)
            have hrest := ih (gapEnd marks n n a + 1) cs2 hcutnext hrec
            have hsplit : atoms.drop a
                = (atoms.drop a).take (gapEnd marks n n a - a + 1)
                  ++ atoms.drop (gapEnd marks n n a + 1) := by
              conv_lhs =>
                rw [← List.take_append_drop (gapEnd marks n n a - a + 1)
                  (atoms.drop a)]
              congr 1
              rw [List.drop_drop]
              congr 1
              omega
            have hseglen : ((atoms.drop a).take (gapEnd marks n n a - a + 1)).length
                = gapEnd marks n n a - a + 1 := by
              simp only [List.length_take, List.length_drop]
              omega
            rw [show emitComps (mkComp atoms bonds atts marks a
                  (gapEnd marks n n a) :: cs2)
              = serializeToks (mkComp atoms bonds atts marks a
                  (gapEnd marks n n a)) ++ emitComps cs2 from by
                simp only [emitComps]]
            conv_rhs => rw [hsplit]
            rw [runWalk_append, hseglen, hrest]
            rw [show a + (gapEnd marks n n a - a + 1)
              = gapEnd marks n n a + 1 from by omega]
            congr 1
            exact gap_comp_emit atoms bonds atts marks a (gapEnd marks n n a) n
              hn hlen' hM hatt hE3 hE1 hE2 hbond_a

theorem finalizeRun_emit (r : Run) (ast : Ast) (hok : RunOk r)
    (h : finalizeRun r = .ok ast) : emitRun r = serializeToks ast := by
  obtain ⟨hemp, hlen, hatt, hmk⟩ := hok
  unfold finalizeRun at h
  cases hfo : firstOpen r.marks with
  | some m => rw [hfo] at h; exact absurd h (by simp)
  | none =>
    rw [hfo] at h
    have hM : ∀ m ∈ r.marks, m.start < m.stopD ∧ m.stopD < r.atoms.length
        ∧ m.stop = some m.stopD := by
      intro m hm
      have hne := firstOpen_none r.marks hfo m hm
      cases hs : m.stop with
      | none => exact absurd hs hne
      | some t =>
        have h2 := (hmk m hm).2 t hs
        have hsd : m.stopD = t := by simp [Mark.stopD, hs]
        refine ⟨by omega, by omega, by rw [hsd]⟩
    cases hbc : buildComps r.atoms r.bonds r.atts r.marks r.atoms.length
        (r.atoms.length + 1) 0 with
    | error e => rw [hbc] at h; exact absurd h (by simp)
    | ok cs =>
      rw [hbc] at h
      have hcut0 : crossesB r.marks 0 = false := by
        cases hc : crossesB r.marks 0
        · rfl
        · obtain ⟨m, hm, h1, h2⟩ := (crossesB_iff _ _).mp hc
          omega
      have hemit := buildComps_emit r.atoms r.bonds r.atts r.marks r.atoms.length
        rfl (fun hnz => hlen (fun hc => hnz (by rw [hc]; rfl))) hM hatt
        (r.atoms.length + 1) 0 cs hcut0 hbc
      rw [List.drop_zero] at hemit
      cases cs with
      | nil => exact absurd h (by simp)
      | cons a2 cs2 =>
        cases cs2 with
        | nil =>
          injection h with h
          subst h
          rw [emitRun, ← hemit]
          simp [emitComps]
        | cons b2 cs3 =>
          injection h with h
          subst h
          rw [emitRun, ← hemit]
          simp only [serializeToks]

/-- One accepting parser step preserves wellformedness and extends the
emitted-token reconstruction by exactly the consumed token. -/
theorem step_sound (st st' : PState) (t : Tok) (hok : StateOk st)
    (h : step st t = .ok st') :
    StateOk st' ∧ emitState st' = emitState st ++ [t] := by
  obtain ⟨⟨atoms, bonds, atts, marks⟩, stack, pending⟩ := st
  obtain ⟨hcur, hstack⟩ := hok
  obtain ⟨hemp, hlen, hatts, hmks⟩ := hcur
  simp only at hemp hlen hatts hmks hstack
  cases t with
  | atom a =>
    simp only [step] at h
    by_cases hA : atoms = []
    · subst hA
      simp only [List.isEmpty_nil, if_true] at h
      cases pending with
      | some b => exact absurd h (by simp)
      | none =>
        injection h with h
        subst h
        obtain ⟨hb, ht, hm⟩ := hemp rfl
        subst hb; subst ht; subst hm
        refine ⟨⟨⟨?_, ?_, ?_, ?_⟩, hstack⟩, ?_⟩
        · intro hcontra; simp at hcontra
        · intro _; simp
        · intro e he; simp at he
        · intro m hm2; simp at hm2
        · rw [emitState_eq, emitState_eq]
          simp only [emitRun]
          simp [runWalk, marksClosesAt, marksOpensAt, attsAt, emitAttGroup,
            bondToks, List.append_assoc]
    · rw [if_neg (by simpa using hA)] at h
      injection h with h
      subst h
      refine ⟨⟨⟨?_, ?_, ?_, ?_⟩, hstack⟩, ?_⟩
      · intro hcontra; simp at hcontra
      · intro _
        simp only [List.length_append, List.length_cons, List.length_nil]
        have := hlen hA
        omega
      · intro e he
        have := hatts e he
        simp only [List.length_append, List.length_cons, List.length_nil]
        omega
      · intro m hm2
        obtain ⟨h1, h2⟩ := hmks m hm2
        refine ⟨?_, ?_⟩
        · simp only [List.length_append, List.length_cons, List.length_nil]
          omega
        · intro t2 ht2
          have := h2 t2 ht2
          simp only [List.length_append, List.length_cons, List.length_nil]
          omega
      · rw [emitState_eq, emitState_eq]
        simp only [emitRun]
        rw [runWalk_snoc bonds atts marks atoms a pending (hlen hA) hA hatts hmks]
        cases pending with
        | none => simp [bondToks, List.append_assoc]
        | some b => simp [bondToks, List.append_assoc]
  | bond b =>
    simp only [step] at h
    cases pending with
    | some b0 => exact absurd h (by simp)
    | none =>
      injection h with h
      subst h
      refine ⟨⟨⟨hemp, hlen, hatts, hmks⟩, hstack⟩, ?_⟩
      rw [emitState_eq, emitState_eq]
      simp [bondToks, List.append_assoc]
  | digit n =>
    simp only [step] at h
    by_cases hA : atoms = []
    · rw [if_pos (by simpa using hA)] at h; exact absurd h (by simp)
    · rw [if_neg (by simpa using hA)] at h
      have hnz : atoms.length ≠ 0 := fun hc => hA (List.length_eq_zero.mp hc)
      by_cases hAtt : (attsAt atts (atoms.length - 1)).isEmpty = true
      · rw [if_neg (by simpa using hAtt)] at h
        have hattsE : attsAt atts (atoms.length - 1) = [] :=
          List.isEmpty_iff.mp hAtt
        cases hfo : findOpen marks n with
        | none =>
          rw [hfo] at h
          simp only at h
          injection h with h
          subst h
          refine ⟨⟨⟨?_, ?_, ?_, ?_⟩, hstack⟩, ?_⟩
          · intro hcontra; exact absurd hcontra hA
          · exact hlen
          · exact hatts
          · intro m hm2
            rcases List.mem_append.mp hm2 with hm2 | hm2
            · exact hmks m hm2
            · have hm3 : m = ⟨n, atoms.length - 1, pending, none⟩ := by
                simpa using hm2
              subst hm3
              refine ⟨by simp only []; omega, ?_⟩
              intro t2 ht2
              simp at ht2
          · rw [emitState_eq, emitState_eq]
            simp only [emitRun]
            have hwalk := runWalk_rows_append bonds atts marks
              (marks ++ [⟨n, atoms.length - 1, pending, none⟩])
              (bondToks pending ++ [Tok.digit n]) atoms 0 hA
              (fun i hi => by
                rw [Nat.zero_add] at hi
                rw [marksClosesAt_append, marksOpensAt_append]
                rw [marksClosesAt_silent [⟨n, atoms.length - 1, pending, none⟩] i
                  (by intro m2 hm2 hc; simp at hm2; rw [hm2] at hc; simp at hc)]
                rw [marksOpensAt_silent [⟨n, atoms.length - 1, pending, none⟩] i
                  (by intro m2 hm2; simp at hm2; rw [hm2]; simp only []; omega)]
                simp)
              (by
                rw [Nat.zero_add]
                rw [marksClosesAt_append, marksOpensAt_append]
                rw [marksClosesAt_silent [⟨n, atoms.length - 1, pending, none⟩]
                  (atoms.length - 1)
                  (by intro m2 hm2 hc; simp at hm2; rw [hm2] at hc; simp at hc)]
                rw [show marksOpensAt [⟨n, atoms.length - 1, pending, none⟩]
                    (atoms.length - 1)
                  = bondToks pending ++ [Tok.digit n] from by
                    rw [marksOpensAt_cons]
                    rw [if_pos rfl]
                    simp [marksOpensAt]]
                simp [List.append_assoc])
              (by rw [Nat.zero_add]; exact hattsE)
            rw [hwalk]
            simp [bondToks, List.append_assoc]
        | some km =>
          obtain ⟨k, m⟩ := km
          rw [hfo] at h
          simp only at h
          cases pending with
          | some b0 =>
            rw [if_pos (by simp)] at h
            exact absurd h (by simp)
          | none =>
            rw [if_neg (by simp)] at h
            by_cases hsj : m.start < atoms.length - 1
            · rw [if_pos hsj] at h
              by_cases hlater : ∀ m2 ∈ marks.drop (k + 1),
                  m2.stop ≠ some (atoms.length - 1)
              · rw [if_pos hlater] at h
                by_cases hopen : ∀ m2 ∈ marks,
                    ¬ (m2.stop = none ∧ m2.start = atoms.length - 1)
                · rw [if_pos hopen] at h
                  injection h with h
                  subst h
                  obtain ⟨hdig, hstopn, hsplit, hset⟩ := findOpen_spec n marks k m hfo
                  have hmmem : m ∈ marks := by
                    conv_lhs => rw [hsplit]
                    simp
                  have hmok := hmks m hmmem
                  refine ⟨⟨⟨?_, ?_, ?_, ?_⟩, hstack⟩, ?_⟩
                  · intro hcontra; exact absurd hcontra hA
                  · exact hlen
                  · exact hatts
                  · intro m2 hm2
                    rw [hset] at hm2
                    rcases List.mem_append.mp hm2 with hm2 | hm2
                    · exact hmks m2 (List.take_subset k marks hm2)
                    · rcases List.mem_cons.mp hm2 with hm2 | hm2
                      · subst hm2
                        refine ⟨by simp only []; omega, ?_⟩
                        intro t2 ht2
                        simp only [] at ht2
                        injection ht2 with ht2
                        subst ht2
                        simp only []
                        omega
                      · exact hmks m2 (List.drop_subset (k + 1) marks hm2)
                  · rw [emitState_eq, emitState_eq]
                    simp only [emitRun]
                    have hopens_last : marksOpensAt marks (atoms.length - 1) = [] := by
                      apply marksOpensAt_silent
                      intro m2 hm2 hc
                      cases hs2 : m2.stop with
                      | none => exact hopen m2 hm2 ⟨hs2, hc⟩
                      | some t2 =>
                        have := (hmks m2 hm2).2 t2 hs2
                        omega
                    have hwalk := runWalk_rows_append bonds atts marks
                      (marks.set k ⟨m.digit, m.start, m.bond,
                        some (atoms.length - 1)⟩)
                      [Tok.digit n] atoms 0 hA
                      (fun i hi => by
                        rw [Nat.zero_add] at hi
                        have hnewC : ¬(Mark.stop ⟨m.digit, m.start, m.bond,
                            some (atoms.length - 1)⟩ = some i) := by
                          intro hc
                          have hc2 : some (atoms.length - 1) = some i := hc
                          injection hc2 with hc3
                          omega
                        have hmC : ¬(m.stop = some i) := by
                          rw [hstopn]
                          simp
                        constructor
                        · rw [hset ⟨m.digit, m.start, m.bond,
                            some (atoms.length - 1)⟩]
                          conv_rhs => rw [hsplit]
                          rw [marksClosesAt_append, marksClosesAt_append,
                            marksClosesAt_cons, marksClosesAt_cons,
                            if_neg hnewC, if_neg hmC]
                        · rw [hset ⟨m.digit, m.start, m.bond,
                            some (atoms.length - 1)⟩]
                          conv_rhs => rw [hsplit]
                          rw [marksOpensAt_append, marksOpensAt_append,
                            marksOpensAt_cons, marksOpensAt_cons])
                      (by
                        rw [Nat.zero_add]
                        rw [hset ⟨m.digit, m.start, m.bond,
                          some (atoms.length - 1)⟩]
                        conv_rhs => rw [hsplit]
                        have hdropsil : marksClosesAt (marks.drop (k + 1))
                            (atoms.length - 1) = [] :=
                          marksClosesAt_silent _ _ (fun m2 hm2 => hlater m2 hm2)
                        have htakesilO : marksOpensAt (marks.take k)
                            (atoms.length - 1) = [] := by
                          apply marksOpensAt_silent
                          intro m2 hm2 hc
                          have hm2m := List.take_subset k marks hm2
                          cases hs2 : m2.stop with
                          | none => exact hopen m2 hm2m ⟨hs2, hc⟩
                          | some t2 =>
                            have := (hmks m2 hm2m).2 t2 hs2
                            omega
                        have hdropsilO : marksOpensAt (marks.drop (k + 1))
                            (atoms.length - 1) = [] := by
                          apply marksOpensAt_silent
                          intro m2 hm2 hc
                          have hm2m := List.drop_subset (k + 1) marks hm2
                          cases hs2 : m2.stop with
                          | none => exact hopen m2 hm2m ⟨hs2, hc⟩
                          | some t2 =>
                            have := (hmks m2 hm2m).2 t2 hs2
                            omega
                        have hmCn : ¬(m.stop = some (atoms.length - 1)) := by
                          rw [hstopn]
                          simp
                        have hnewO : ¬(Mark.start ⟨m.digit, m.start, m.bond,
                            some (atoms.length - 1)⟩ = atoms.length - 1) := by
                          intro hc
                          have hc2 : m.start = atoms.length - 1 := hc
                          omega
                        rw [marksClosesAt_append, marksClosesAt_append,
                          marksOpensAt_append, marksOpensAt_append,
                          marksClosesAt_cons, marksClosesAt_cons,
                          marksOpensAt_cons, marksOpensAt_cons,
                          if_pos (show Mark.stop ⟨m.digit, m.start, m.bond,
                              some (atoms.length - 1)⟩ = some (atoms.length - 1)
                            from rfl),
                          if_neg hmCn, if_neg hnewO,
                          hdropsil, htakesilO, hdropsilO]
                        simp [hdig, List.append_assoc])
                      (by rw [Nat.zero_add]; exact hattsE)
                    rw [hwalk]
                    simp [bondToks, List.append_assoc]
                · rw [if_neg hopen] at h; exact absurd h (by simp)
              · rw [if_neg hlater] at h; exact absurd h (by simp)
            · rw [if_neg hsj] at h; exact absurd h (by simp)
      · rw [if_pos (by simpa using hAtt)] at h
        exact absurd h (by simp)
  | lparen =>
    simp only [step] at h
    cases pending with
    | some b0 => exact absurd h (by simp)
    | none =>
      simp only [Option.isSome_none, Bool.false_eq_true, if_false] at h
      by_cases hA : atoms = []
      · rw [if_pos (by simpa using hA)] at h; exact absurd h (by simp)
      · rw [if_neg (by simpa using hA)] at h
        injection h with h
        subst h
        refine ⟨⟨RunOk.empty, ?_⟩, ?_⟩
        · intro f hf
          rcases List.mem_cons.mp hf with hf | hf
          · rw [hf]; exact ⟨⟨hemp, hlen, hatts, hmks⟩, hA⟩
          · exact hstack f hf
        · rw [emitState_eq, emitState_eq]
          rw [show emitStack (Run.mk atoms bonds atts marks :: stack) []
            = emitStack stack (emitRun (Run.mk atoms bonds atts marks)
                ++ [Tok.lparen]) from rfl]
          rw [emitStack_acc, emitRun_empty_atoms Run.empty rfl]
          simp [bondToks, List.append_assoc]
  | rparen =>
    simp only [step] at h
    cases pending with
    | some b0 => exact absurd h (by simp)
    | none =>
      simp only [Option.isSome_none, Bool.false_eq_true, if_false] at h
      cases stack with
      | nil => exact absurd h (by simp)
      | cons parent rest =>
        cases hF : finalizeRun (Run.mk atoms bonds atts marks) with
        | error e => rw [hF] at h; exact absurd h (by simp)
        | ok ast =>
          rw [hF] at h
          simp only at h
          by_cases hPA : parent.atoms = []
          · rw [if_pos (by simpa using hPA)] at h; exact absurd h (by simp)
          · rw [if_neg (by simpa using hPA)] at h
            injection h with h
            subst h
            obtain ⟨⟨hPemp, hPlen, hPatts, hPmks⟩, hPne⟩ := hstack parent (by simp)
            refine ⟨⟨⟨?_, ?_, ?_, ?_⟩, ?_⟩, ?_⟩
            · intro hcontra; exact absurd hcontra hPA
            · exact hPlen
            · intro e he
              exact addAtt_bound parent.atts (parent.atoms.length - 1) ast
                parent.atoms.length hPatts
                (by
                  have : parent.atoms.length ≠ 0 :=
                    fun hc => hPA (List.length_eq_zero.mp hc)
                  omega) e he
            · exact hPmks
            · intro f hf; exact hstack f (by simp [hf])
            · rw [emitState_eq, emitState_eq]
              rw [show emitStack (parent :: rest) []
                = emitStack rest (emitRun parent ++ [Tok.lparen]) from rfl]
              rw [emitStack_acc rest (emitRun parent ++ [Tok.lparen])]
              have hcur_emit := finalizeRun_emit (Run.mk atoms bonds atts marks) ast
                ⟨hemp, hlen, hatts, hmks⟩ hF
              have hrun' : emitRun (Run.mk parent.atoms parent.bonds
                  (addAtt parent.atts (parent.atoms.length - 1) ast) parent.marks)
                  = emitRun parent
                    ++ (Tok.lparen :: (serializeToks ast ++ [Tok.rparen])) := by
                rw [emitRun]
                have := runWalk_addAtt parent.bonds parent.atts parent.marks ast
                  parent.atoms 0 hPne
                rw [Nat.zero_add] at this
                rw [this]
                rfl
              rw [hrun', ← hcur_emit]
              simp [bondToks, List.append_assoc]

/-- Running the parser from a wellformed state: an accepted result
serializes to the state's consumed tokens followed by the remaining
tokens. -/
theorem parseLoop_emit :
    ∀ (ts : List Tok) (st : PState) (ast : Ast),
      StateOk st → parseLoop st ts = .ok ast →
      serializeToks ast = emitState st ++ ts := by
  intro ts
  induction ts with
  | nil =>
    intro st ast hok h
    simp only [parseLoop] at h
    cases hp : st.pending with
    | some b => rw [hp] at h; exact absurd h (by simp)
    | none =>
      rw [hp] at h
      simp only [Option.isSome_none, Bool.false_eq_true, if_false] at h
      cases hs : st.stack with
      | cons f fs => rw [hs] at h; exact absurd h (by simp)
      | nil =>
        rw [hs] at h
        have hfe := finalizeRun_emit st.run ast hok.1 h
        rw [emitState_eq, hs, hp]
        simp [emitStack, bondToks, hfe]
  | cons t ts ih =>
    intro st ast hok h
    simp only [parseLoop] at h
    cases hs : step st t with
    | error e => rw [hs] at h; exact absurd h (by simp)
    | ok st' =>
      rw [hs] at h
      obtain ⟨hok', hemit⟩ := step_sound st st' t hok hs
      rw [ih st' ast hok' h, hemit]
      simp [List.append_assoc]

theorem initState_ok : StateOk initState :=
  ⟨RunOk.empty, by intro f hf; simp [initState] at hf⟩

/-- Round trip (spec §8, first property): for every SMILES string accepted
by the parser, serializing the parse result reproduces the input exactly. -/
theorem parse_roundtrip (s : String) (ast : Ast) (h : parse s = .ok ast) :
    buildSMILES ast = s := by
  unfold parse at h
  cases ht : tokenize s with
  | error e => rw [ht] at h; exact absurd h (by simp)
  | ok toks =>
    rw [ht] at h
    have h2 := parseLoop_emit toks initState ast initState_ok h
    have hinit : emitState initState = [] := by
      simp [emitState, emitStack, emitRun, initState, Run.empty, runWalk, bondToks]
    rw [hinit, List.nil_append] at h2
    rw [buildSMILES, h2]
    exact tokenize_detok ht

/-! ## Sanitization: `astToObject` output is plain JSON-serializable data -/

theorem isFn_false_ne {v : JsValue} (h : v.isFn = false) : v ≠ .fn := by
  intro hc; subst hc; simp [JsValue.isFn] at h

/-- The object walk of `astToObject` sanitizes: on any input whose arrays
carry no function elements, the result is clean at every depth (keys
beginning with an underscore and function-valued properties are skipped,
arrays are converted elementwise, conversion recurses). -/
theorem sanitizeJs_clean (v : JsValue) (h1 : arrOk v = true)
    (h2 : v ≠ .fn) : cleanJs (sanitizeJs v) = true := by
  refine sanitizeJs.induct
    (fun v => arrOk v = true → v ≠ JsValue.fn → cleanJs (sanitizeJs v) = true)
    (fun fs => arrOkFields fs = true → cleanFields (sanitizeFields fs) = true)
    (fun l => arrOkArr l = true → cleanArr (sanitizeArr l) = true)
    ?_ ?_ ?_ ?_ ?_ ?_ ?_ ?_ v h1 h2
  · intro xs ih ha _
    simp only [sanitizeJs, cleanJs]
    exact ih (by simpa [arrOk] using ha)
  · intro fs ih ha _
    simp only [sanitizeJs, cleanJs]
    exact ih (by simpa [arrOk] using ha)
  · intro v hna hno ha hf
    cases v with
    | str s => simp [sanitizeJs, cleanJs]
    | num n => simp [sanitizeJs, cleanJs]
    | bool b => simp [sanitizeJs, cleanJs]
    | null => simp [sanitizeJs, cleanJs]
    | fn => exact absurd rfl hf
    | arr xs => exact (hna xs rfl).elim
    | obj fs => exact (hno fs rfl).elim
  · intro _
    simp [sanitizeFields, cleanFields]
  · intro k v fs hskip ih h
    simp only [arrOkFields, Bool.and_eq_true] at h
    simp only [sanitizeFields, if_pos hskip]
    exact ih h.2
  · intro k v fs hskip ihv ihfs h
    simp only [arrOkFields, Bool.and_eq_true] at h
    simp only [sanitizeFields, if_neg hskip]
    simp only [cleanFields, Bool.and_eq_true]
    have hor : ¬(underscoreKey k = true ∨ v.isFn = true) := by simpa using hskip
    push_neg at hor
    exact ⟨⟨by simp [hor.1], ihv h.1 (isFn_false_ne (by simpa using hor.2))⟩,
      ihfs h.2⟩
  · intro _
    simp [sanitizeArr, cleanArr]
  · intro x xs ihx ihxs h
    simp only [arrOkArr, Bool.and_eq_true] at h
    obtain ⟨⟨hx1, hx2⟩, hxs⟩ := h
    simp only [sanitizeArr, cleanArr, Bool.and_eq_true]
    exact ⟨ihx hx2 (isFn_false_ne (by simpa using hx1)), ihxs hxs⟩

theorem digitChar_isDigit (m : Nat) (hm : m < 10) :
    (Nat.digitChar m).isDigit = true := by
  interval_cases m <;> decide

theorem toDigitsCore_digits (f : Nat) :
    ∀ (n : Nat) (ds : List Char), (∀ c ∈ ds, c.isDigit = true) →
      ∀ c ∈ Nat.toDigitsCore 10 f n ds, c.isDigit = true := by
  induction f with
  | zero => intro n ds hds c hc; exact hds c hc
  | succ f ih =>
    intro n ds hds c hc
    simp only [Nat.toDigitsCore] at hc
    by_cases h0 : n / 10 = 0
    · rw [if_pos h0] at hc
      rcases List.mem_cons.mp hc with hc | hc
      · rw [hc]; exact digitChar_isDigit _ (Nat.mod_lt _ (by norm_num))
      · exact hds c hc
    · rw [if_neg h0] at hc
      refine ih (n / 10) (Nat.digitChar (n % 10) :: ds) ?_ c hc
      intro c' hc'
      rcases List.mem_cons.mp hc' with hc' | hc'
      · rw [hc']; exact digitChar_isDigit _ (Nat.mod_lt _ (by norm_num))
      · exact hds c' hc'

/-- The decimal rendering of a position key never begins with an
underscore. -/
theorem toString_nat_no_underscore (n : Nat) :
    underscoreKey (toString n) = false := by
  have hrepr : toString n = (Nat.toDigits 10 n).asString := rfl
  rw [underscoreKey, hrepr]
  have hdata : ((Nat.toDigits 10 n).asString).data = Nat.toDigits 10 n := rfl
  rw [hdata]
  cases hh : (Nat.toDigits 10 n).head? with
  | none => simp
  | some c =>
    have hmem : c ∈ Nat.toDigits 10 n := by
      cases hl : Nat.toDigits 10 n with
      | nil => rw [hl] at hh; simp at hh
      | cons a t =>
        rw [hl] at hh
        simp only [List.head?] at hh
        injection hh with hh
        simp [hl, hh]
    have hdig : c.isDigit = true :=
      toDigitsCore_digits (n + 1) n [] (by simp) c hmem
    have hne : c ≠ '_' := by
      intro hc; rw [hc] at hdig; exact absurd hdig (by decide)
    simp [hne]

theorem cleanArr_map_str (l : List String) :
    cleanArr (l.map JsValue.str) = true := by
  induction l with
  | nil => simp [cleanArr]
  | cons a l ih => simp [cleanArr, cleanJs, ih]

theorem cleanArr_map_bond (l : List (Option Bond)) :
    cleanArr (l.map fun
      | none => JsValue.null
      | some b => JsValue.str (String.mk [bondChar b])) = true := by
  induction l with
  | nil => simp [cleanArr]
  | cons a l ih =>
    cases a <;> simp [cleanArr, cleanJs, ih]

theorem cleanFields_map_sub (subs : List (Nat × String)) :
    cleanFields (subs.map fun e => (toString e.1, JsValue.str e.2)) = true := by
  induction subs with
  | nil => simp [cleanFields]
  | cons e rest ih =>
    simp [cleanFields, cleanJs, ih, toString_nat_no_underscore]

/-- The plain structural record of an engine node is clean at every depth:
no function values, no underscore-prefixed keys, arrays elementwise. -/
theorem astToJs_clean (a : Ast) : cleanJs (astToJs a) = true := by
  refine astToJs.induct (fun a => cleanJs (astToJs a) = true)
    (fun l => cleanArr (astListToJs l) = true)
    (fun atts => cleanFields (attsToJs atts) = true)
    ?_ ?_ ?_ ?_ ?_ ?_ ?_ ?_ a
  · intro atoms bonds atts ih
    simp only [astToJs, cleanJs, cleanFields, Bool.and_eq_true]
    repeat' apply And.intro
    all_goals first
      | decide
      | exact ih
      | (simp [cleanJs, cleanArr_map_str, cleanArr_map_bond]; done)
  · intro base size rn off subs atts bonds ih
    simp only [astToJs, cleanJs, cleanFields, Bool.and_eq_true]
    repeat' apply And.intro
    all_goals first
      | decide
      | exact ih
      | (simp [cleanJs, cleanArr_map_str, cleanArr_map_bond,
          cleanFields_map_sub]; done)
  · intro rs ih
    simp only [astToJs, cleanJs, cleanFields, Bool.and_eq_true]
    repeat' apply And.intro
    all_goals first
      | decide
      | exact ih
      | (simp [cleanJs]; done)
  · intro cs ih
    simp only [astToJs, cleanJs, cleanFields, Bool.and_eq_true]
    repeat' apply And.intro
    all_goals first
      | decide
      | exact ih
      | (simp [cleanJs]; done)
  · simp [astListToJs, cleanArr]
  · intro c cs ihc ihcs
    simp only [astListToJs, cleanArr, Bool.and_eq_true]
    exact ⟨ihc, ihcs⟩
  · simp [attsToJs, cleanFields]
  · intro p l rest ihl ihrest
    simp only [attsToJs, cleanFields, Bool.and_eq_true, cleanJs]
    exact ⟨⟨by simp [toString_nat_no_underscore], ihl⟩, ihrest⟩

/-! ## The claims -/

/-- C1: for every syntactically valid SMILES string `s` accepted by the
parser, serializing the parse result reproduces `s` exactly —
`serialize(parse(s)) = s` — and consequently `validate_roundtrip` on such a
string returns a result with `valid: true` (witnessed below at "c1ccccc1",
"C1CCCCC1", "Cc1ccccc1", and at the fused-ring strings "C1CC2CCC12" and
"c1ccc2ccccc2c1" whose overlapping ring closures parse to FusedRing). -/
theorem claim_C1_roundtrip :
    (∀ (s : String) (ast : Ast), parse s = .ok ast → buildSMILES ast = s)
    ∧ (∀ (s : String) (ast : Ast), parse s = .ok ast →
        validate_roundtrip s = RtResult.ok s true none
          "SMILES round-trip validation passed") := by
  constructor
  · exact parse_roundtrip
  · intro s ast h
    have hb := parse_roundtrip s ast h
    have hval : isValidRoundTripG parse buildSMILES s = true := by
      simp [isValidRoundTripG, h, hb]
    simp [validate_roundtrip, validate_roundtripG, hval]

/-- Witness for C1 at the five named strings, two of them fused-ring
strings with overlapping ring closures. -/
theorem claim_C1_roundtrip_witness :
    (parse "c1ccccc1"
        = .ok (Ast.ring "c" 6 1 0 [] [] [none, none, none, none, none, none])
      ∧ buildSMILES (Ast.ring "c" 6 1 0 [] [] [none, none, none, none, none, none])
        = "c1ccccc1")
    ∧ (parse "C1CC2CCC12"
        = .ok (Ast.fusedRing
            [Ast.ring "C" 6 1 0 [] [] [none, none, none, none, none, none],
             Ast.ring "C" 4 2 2 [] [] [none, none, none, none]])
      ∧ buildSMILES (Ast.fusedRing
            [Ast.ring "C" 6 1 0 [] [] [none, none, none, none, none, none],
             Ast.ring "C" 4 2 2 [] [] [none, none, none, none]])
        = "C1CC2CCC12")
    ∧ validate_roundtrip "c1ccccc1"
        = RtResult.ok "c1ccccc1" true none "SMILES round-trip validation passed"
    ∧ validate_roundtrip "C1CCCCC1"
        = RtResult.ok "C1CCCCC1" true none "SMILES round-trip validation passed"
    ∧ validate_roundtrip "Cc1ccccc1"
        = RtResult.ok "Cc1ccccc1" true none "SMILES round-trip validation passed"
    ∧ validate_roundtrip "c1ccc2ccccc2c1"
        = RtResult.ok "c1ccc2ccccc2c1" true none
            "SMILES round-trip validation passed" :=
  ⟨⟨rfl, claim_C1_roundtrip.1 "c1ccccc1" _ rfl⟩,
    ⟨rfl, claim_C1_roundtrip.1 "C1CC2CCC12" _ rfl⟩,
    claim_C1_roundtrip.2 "c1ccccc1"
      (Ast.ring "c" 6 1 0 [] [] [none, none, none, none, none, none]) rfl,
    claim_C1_roundtrip.2 "C1CCCCC1"
      (Ast.ring "C" 6 1 0 [] [] [none, none, none, none, none, none]) rfl,
    claim_C1_roundtrip.2 "Cc1ccccc1"
      (Ast.molecule [Ast.linear ["C"] [] [],
        Ast.ring "c" 6 1 0 [] [] [none, none, none, none, none, none]]) rfl,
    claim_C1_roundtrip.2 "c1ccc2ccccc2c1"
      (Ast.fusedRing
        [Ast.ring "c" 10 1 0 [] []
          [none, none, none, none, none, none, none, none, none, none],
         Ast.ring "c" 6 2 3 [] [] [none, none, none, none, none, none]]) rfl⟩

/-- C2: for every input, each of the five boundary operations returns a
structured result record — on success the documented success record, on any
internal (engine) failure `{success: false, error}` carrying the engine's
message — and, each operation being a total function of its input, no
exception propagates to the caller. -/
theorem claim_C2_boundary_structured :
    ∀ (s : String) (o : ObjNode),
      ((∃ a, parse s = Except.ok a ∧ parse_smiles s = ParseResult.ok s a)
        ∨ (∃ e, parse s = Except.error e ∧ parse_smiles s = ParseResult.err e))
      ∧ build_smiles o = BuildResult.ok (buildSMILES (objectToAst o))
      ∧ ((∃ a, parse s = Except.ok a
            ∧ decompile_smiles s = DecompileResult.ok s (decompile a))
        ∨ (∃ e, parse s = Except.error e
            ∧ decompile_smiles s = DecompileResult.err e))
      ∧ ((∃ m, validate_roundtrip s = RtResult.ok s true none m)
        ∨ (∃ reg m, validate_roundtrip s = RtResult.ok s false reg m)
        ∨ (∃ e, parse s = Except.error e ∧ validate_roundtrip s = RtResult.err e))
      ∧ get_common_fragments.success = true := by
  intro s o
  refine ⟨?_, rfl, ?_, ?_, rfl⟩
  · cases h : parse s with
    | ok a => exact Or.inl ⟨a, rfl, by simp [parse_smiles, h]⟩
    | error e => exact Or.inr ⟨e, rfl, by simp [parse_smiles, h]⟩
  · cases h : parse s with
    | ok a => exact Or.inl ⟨a, rfl, by simp [decompile_smiles, h]⟩
    | error e => exact Or.inr ⟨e, rfl, by simp [decompile_smiles, h]⟩
  · cases h : parse s with
    | ok a =>
      left
      refine ⟨"SMILES round-trip validation passed", ?_⟩
      have hb := parse_roundtrip s a h
      have hval : isValidRoundTripG parse buildSMILES s = true := by
        simp [isValidRoundTripG, h, hb]
      simp [validate_roundtrip, validate_roundtripG, hval]
    | error e =>
      right; right
      refine ⟨e, rfl, ?_⟩
      have hval : isValidRoundTripG parse buildSMILES s = false := by
        simp [isValidRoundTripG, h]
      simp [validate_roundtrip, validate_roundtripG, hval, h]

/-- C3: `parse_smiles` on "c1ccccc1" succeeds with exactly the documented
ring record, and on "CCO" with exactly the documented linear record. -/
theorem claim_C3_parse_records :
    parse_smiles "c1ccccc1" = ParseResult.ok "c1ccccc1"
        (Ast.ring "c" 6 1 0 [] [] [none, none, none, none, none, none])
    ∧ parse_smiles "CCO" = ParseResult.ok "CCO"
        (Ast.linear ["C", "C", "O"] [none, none] []) :=
  ⟨rfl, rfl⟩

/-- C4: for every engine and every input on which the round trip fails but
parsing succeeds, `validate_roundtrip` returns a success record with
`valid: false`, the regenerated string, and a message reporting both the
original and the regenerated text; when the round trip succeeds it returns
`valid: true` with no `regenerated` field. -/
theorem claim_C4_mismatch_report :
    (∀ (p : String → Except String Ast) (b : Ast → String) (s : String) (a : Ast),
      p s = .ok a → b a ≠ s →
      validate_roundtripG p b s = RtResult.ok s false (some (b a))
        ("Round-trip mismatch: expected \"" ++ s ++ "\", got \"" ++ b a ++ "\""))
    ∧ (∀ (p : String → Except String Ast) (b : Ast → String) (s : String),
      isValidRoundTripG p b s = true →
      validate_roundtripG p b s = RtResult.ok s true none
        "SMILES round-trip validation passed") := by
  constructor
  · intro p b s a hp hb
    have hval : isValidRoundTripG p b s = false := by
      simp only [isValidRoundTripG, hp, beq_eq_false_iff_ne, ne_eq]
      exact hb
    simp [validate_roundtripG, hval, hp]
  · intro p b s h
    simp [validate_roundtripG, h]

/-- Witness for C4 over a two-result toy engine: a parse-ok/serialize-
mismatch input, and a round-tripping input. -/
theorem claim_C4_mismatch_report_witness :
    ((fun _ => Except.ok (Ast.linear ["C"] [] []) : String → Except String Ast) "C"
        = Except.ok (Ast.linear ["C"] [] [])
      ∧ ("X" : String) ≠ "C"
      ∧ validate_roundtripG (fun _ => Except.ok (Ast.linear ["C"] [] []))
          (fun _ => "X") "C"
          = RtResult.ok "C" false (some "X")
            ("Round-trip mismatch: expected \"" ++ "C" ++ "\", got \"" ++ "X" ++ "\""))
    ∧ (isValidRoundTripG (fun _ => Except.ok (Ast.linear ["C"] [] []))
        (fun _ => "C") "C" = true
      ∧ validate_roundtripG (fun _ => Except.ok (Ast.linear ["C"] [] []))
          (fun _ => "C") "C"
          = RtResult.ok "C" true none "SMILES round-trip validation passed") :=
  ⟨⟨rfl, by decide,
      claim_C4_mismatch_report.1 (fun _ => Except.ok (Ast.linear ["C"] [] []))
        (fun _ => "X") "C" (Ast.linear ["C"] [] []) rfl (by decide)⟩,
    ⟨rfl,
      claim_C4_mismatch_report.2 (fun _ => Except.ok (Ast.linear ["C"] [] []))
        (fun _ => "C") "C" rfl⟩⟩

/-- C5: for every input on which parsing fails, the round-trip validator's
result is the boolean `false`, not an error, and the boundary
`validate_roundtrip` returns a structured failure record. -/
theorem claim_C5_parse_failure_false :
    ∀ (s e : String), parse s = .error e →
      isValidRoundTrip s = false ∧ validate_roundtrip s = RtResult.err e := by
  intro s e h
  have hval : isValidRoundTripG parse buildSMILES s = false := by
    simp [isValidRoundTripG, h]
  exact ⟨hval, by simp [validate_roundtrip, validate_roundtripG, hval, h]⟩

/-- Witness for C5 at the unclosed-ring input "C1CC". -/
theorem claim_C5_parse_failure_false_witness :
    parse "C1CC" = Except.error "Unclosed ring closure: 1"
    ∧ isValidRoundTrip "C1CC" = false
    ∧ validate_roundtrip "C1CC" = RtResult.err "Unclosed ring closure: 1" :=
  ⟨rfl, (claim_C5_parse_failure_false "C1CC" _ rfl).1,
    (claim_C5_parse_failure_false "C1CC" _ rfl).2⟩

/-- C6 as stated is false on the code: the fragment categories are not
keyed by the spec's singular names `ring` and `halide` (src/index.js lines
224–231 use `rings` and `halides`). -/
theorem claim_C6_fragments_counterexample :
    ¬ (get_common_fragments.categories.map Prod.fst
        = ["alkyl", "functional", "aromatic", "ring", "halide", "other"]) := by
  decide

/-- C6 (amended): `get_common_fragments` always returns `success: true`
with a fragments map and the six categories `alkyl, functional, aromatic,
rings, halides, other`, where `alkyl` contains "methyl", `rings` contains
"benzene", and the benzene fragment's SMILES is "c1ccccc1". -/
theorem claim_C6_fragments_amended :
    get_common_fragments.success = true
    ∧ get_common_fragments.categories.map Prod.fst
        = ["alkyl", "functional", "aromatic", "rings", "halides", "other"]
    ∧ ((get_common_fragments.categories.lookup "alkyl").getD []).contains "methyl"
        = true
    ∧ ((get_common_fragments.categories.lookup "rings").getD []).contains "benzene"
        = true
    ∧ get_common_fragments.fragments.lookup "benzene"
        = some ⟨"c1ccccc1", "ring"⟩ := by
  refine ⟨rfl, by decide, by decide, by decide, by decide⟩

/-- C7: parsing "C1CC", whose ring-closure digit 1 is never matched, fails:
`parse_smiles` returns a failure record whose error message begins with
"Unclosed", and the failure constructor carries no `ast` field (fail-fast,
no partial AST). -/
theorem claim_C7_unclosed_ring :
    parse_smiles "C1CC" = ParseResult.err "Unclosed ring closure: 1"
    ∧ "Unclosed".data.isPrefixOf "Unclosed ring closure: 1".data = true :=
  ⟨rfl, by decide⟩

/-- C8: every boundary operation is deterministic and side-effect-free: the
operations are pure functions of their input record, so structurally equal
inputs give structurally equal results, and the input value itself is never
modified (the embedding has no mutable state). -/
theorem claim_C8_deterministic :
    ∀ (s t : String) (o o' : ObjNode), s = t → o = o' →
      parse_smiles s = parse_smiles t
      ∧ build_smiles o = build_smiles o'
      ∧ decompile_smiles s = decompile_smiles t
      ∧ validate_roundtrip s = validate_roundtrip t
      ∧ get_common_fragments = get_common_fragments := by
  intro s t o o' hst hoo
  subst hst; subst hoo
  exact ⟨rfl, rfl, rfl, rfl, rfl⟩

/-- Witness for C8 at concrete inputs. -/
theorem claim_C8_deterministic_witness :
    parse_smiles "CCO" = parse_smiles "CCO"
    ∧ build_smiles (ObjNode.linear (some ["C"]) none none)
        = build_smiles (ObjNode.linear (some ["C"]) none none)
    ∧ decompile_smiles "CCO" = decompile_smiles "CCO"
    ∧ validate_roundtrip "CCO" = validate_roundtrip "CCO"
    ∧ get_common_fragments = get_common_fragments := by
  have := claim_C8_deterministic "CCO" "CCO"
    (ObjNode.linear (some ["C"]) none none)
    (ObjNode.linear (some ["C"]) none none) rfl rfl
  exact this

/-- C9: when `build_smiles` reconstructs a ring record, a falsy
`ringNumber` (0 or absent) is replaced by 1 — the JavaScript
`obj.ringNumber || 1` — and a falsy `offset` by 0, so the node handed to
the serializer has `ringNumber` 1 even though the data model admits 0. -/
theorem claim_C9_falsy_ring_number :
    ∀ (atoms : String) (size : Nat) (rn off : Option Nat)
      (subs : Option (List (Nat × String)))
      (atts : Option (List (Nat × List ObjNode)))
      (bonds : Option (List (Option Bond))),
      rn = some 0 ∨ rn = none →
      objectToAst (ObjNode.ring atoms size rn off subs atts bonds)
        = Ast.ring atoms size 1 (jsOrNat off 0) (subs.getD [])
            (reconstructAttachments atts) (bonds.getD [])
      ∧ build_smiles (ObjNode.ring atoms size rn off subs atts bonds)
        = BuildResult.ok (buildSMILES (Ast.ring atoms size 1 (jsOrNat off 0)
            (subs.getD []) (reconstructAttachments atts) (bonds.getD []))) := by
  intro atoms size rn off subs atts bonds h
  have h1 : jsOrNat rn 1 = 1 := by rcases h with h | h <;> simp [h, jsOrNat]
  constructor
  · simp [objectToAst, h1]
  · simp [build_smiles, objectToAst, h1]

/-- Witness for C9 at `ringNumber = 0`. -/
theorem claim_C9_falsy_ring_number_witness :
    objectToAst (ObjNode.ring "c" 6 (some 0) none none none none)
      = Ast.ring "c" 6 1 0 [] [] []
    ∧ build_smiles (ObjNode.ring "c" 6 (some 0) none none none none)
      = BuildResult.ok (buildSMILES (Ast.ring "c" 6 1 0 [] [] [])) := by
  have h2 := claim_C9_falsy_ring_number "c" 6 (some 0) none none none none
    (Or.inl rfl)
  have hre : reconstructAttachments none = ([] : Atts) := by
    simp [reconstructAttachments]
  constructor
  · rw [h2.1, hre]
    rfl
  · rw [h2.2, hre]
    rfl

/-- C10: every AST record returned by `parse_smiles` is fully sanitized —
its plain rendering contains, at every nesting depth, no function-valued
property and no key beginning with an underscore, with arrays converted
elementwise — and the sanitizing walk of `astToObject` guarantees the same
for every plain value whose arrays carry no function elements. -/
theorem claim_C10_sanitized :
    (∀ (s sm : String) (a : Ast), parse_smiles s = ParseResult.ok sm a →
      cleanJs (astToJs a) = true)
    ∧ (∀ v : JsValue, arrOk v = true → v ≠ .fn →
        cleanJs (sanitizeJs v) = true) := by
  constructor
  · intro s sm a _
    exact astToJs_clean a
  · exact sanitizeJs_clean

/-- Witness for C10: the ethanol parse result is clean, and a value with an
underscore key and a function property sanitizes to a clean record. -/
theorem claim_C10_sanitized_witness :
    parse_smiles "CCO" = ParseResult.ok "CCO"
        (Ast.linear ["C", "C", "O"] [none, none] [])
    ∧ cleanJs (astToJs (Ast.linear ["C", "C", "O"] [none, none] [])) = true
    ∧ arrOk (JsValue.obj [("_secret", JsValue.num 1), ("f", JsValue.fn),
        ("atoms", JsValue.arr [JsValue.str "C"])]) = true
    ∧ cleanJs (sanitizeJs (JsValue.obj [("_secret", JsValue.num 1),
        ("f", JsValue.fn), ("atoms", JsValue.arr [JsValue.str "C"])])) = true := by
  have harr : arrOk (JsValue.obj [("_secret", JsValue.num 1), ("f", JsValue.fn),
      ("atoms", JsValue.arr [JsValue.str "C"])]) = true := by
    simp [arrOk, arrOkFields, arrOkArr, JsValue.isFn]
  exact ⟨rfl, claim_C10_sanitized.1 "CCO" "CCO" _ rfl, harr,
    claim_C10_sanitized.2 _ harr (fun h => JsValue.noConfusion h)⟩

end SmilesSkill
